import Mathlib

/-!
Verification of the translation-file parser and key-resolution engine of the
laravel-translate extension (src/extension.ts), as a shallow embedding.

Strings are modelled as lists of characters (`Str`).  The JavaScript regular
expressions used by the source are embedded as deterministic scanners: each
pattern used by the code admits a deterministic leftmost-match semantics
(quoted content cannot extend past an unescaped closing quote, so lazy
repetition never backtracks), which the scanners implement directly.
JavaScript objects are modelled as association lists of assignment events in
which the most recent assignment wins (`jsLookup`), abstracting prototype
semantics.  The file system and the parse cache are explicit state; a read
counter records each `fs.readFileSync` call.
-/

namespace LaravelTranslate

abbrev Str := List Char

/-- Single quote character (39). -/
def qS : Char := Char.ofNat 39
/-- Double quote character (34). -/
def qD : Char := Char.ofNat 34
/-- Backtick character (96). -/
def qB : Char := Char.ofNat 96
/-- Backslash character (92). -/
def bsl : Char := Char.ofNat 92
/-- Line feed character (10). -/
def nlC : Char := Char.ofNat 10
/-- Carriage return character (13). -/
def crC : Char := Char.ofNat 13

/-- JavaScript line terminators relevant to multiline anchors and to the dot
in the embedded patterns (LF and CR; the inputs in scope are ASCII). -/
def isNL (c : Char) : Bool := c == nlC || c == crC

/-- JavaScript whitespace class relevant to the ASCII inputs in scope. -/
def isJsWs (c : Char) : Bool :=
  c == ' ' || c == Char.ofNat 9 || c == nlC || c == crC ||
  c == Char.ofNat 11 || c == Char.ofNat 12

/-! ## Cleaning pipeline of parsePhpArray (extension.ts lines 106 to 114)

`content.replace(...)` chains, one definition per replace call. -/

/-- Scanner for the line-anchored open-tag strip with flags g and m: at each
line start, remove the literal open tag and the following greedy whitespace
run.  The boolean argument is true when the current position is at a line
start; fuel equals the remaining length (each step consumes at least one
character). -/
def phpOpenF : Nat → Str → Bool → Str
  | 0, cs, _ => cs
  | _ + 1, [], _ => []
  | fuel + 1, c :: rest, atLS =>
    if atLS && c == '<' && rest.take 4 == ['?', 'p', 'h', 'p'] then
      let after := rest.drop 4
      let run := after.takeWhile isJsWs
      phpOpenF fuel (after.dropWhile isJsWs) (isNL (run.getLastD 'p'))
    else c :: phpOpenF fuel rest (isNL c)

/-- The replace of every occurrence of the two characters `?` `>` by nothing
(the closing-tag strip, global flag). -/
def closeTag : Str → Str
  | '?' :: '>' :: rest => closeTag rest
  | c :: rest => c :: closeTag rest
  | [] => []

/-- Scanner for the line-anchored return strip: at each line start, a greedy
whitespace run, the literal `return`, and at least one whitespace character
are removed together. -/
def returnF : Nat → Str → Bool → Str
  | 0, cs, _ => cs
  | _ + 1, [], _ => []
  | fuel + 1, c :: rest, atLS =>
    if atLS then
      let r1 := (c :: rest).dropWhile isJsWs
      if r1.take 6 == ['r', 'e', 't', 'u', 'r', 'n'] && isJsWs ((r1.drop 6).headD 'x') then
        let r2 := r1.drop 6
        let w2 := r2.takeWhile isJsWs
        returnF fuel (r2.dropWhile isJsWs) (isNL (w2.getLastD 'x'))
      else c :: returnF fuel rest (isNL c)
    else c :: returnF fuel rest (isNL c)

/-- Index of the last line terminator in a list, if any. -/
def lastNLIdx : Str → Option Nat
  | [] => none
  | c :: rest =>
    match lastNLIdx rest with
    | some k => some (k + 1)
    | none => if isNL c then some 0 else none

/-- Scanner for the terminator strip `;` `\s*` `$` with flags g and m: a
semicolon whose following whitespace reaches the end of the string is removed
together with that whitespace; otherwise the greedy run backtracks to the
last line terminator inside it, which is kept. -/
def semiF : Nat → Str → Str
  | 0, cs => cs
  | _ + 1, [] => []
  | fuel + 1, c :: rest =>
    if c == ';' then
      let w := rest.takeWhile isJsWs
      let r := rest.dropWhile isJsWs
      if r.isEmpty then []
      else
        match lastNLIdx w with
        | some k => semiF fuel (w.drop k ++ r)
        | none => c :: semiF fuel rest
    else c :: semiF fuel rest

/-- JavaScript trim on the ASCII inputs in scope. -/
def jsTrim (cs : Str) : Str :=
  ((cs.dropWhile isJsWs).reverse.dropWhile isJsWs).reverse

/-- Removal of a single leading open bracket (start-of-string anchor only). -/
def stripLBr (cs : Str) : Str :=
  if cs.head? = some '[' then cs.tail else cs

/-- Removal of a single trailing close bracket (end-of-string anchor only). -/
def stripRBr (cs : Str) : Str :=
  if cs.getLast? = some ']' then cs.dropLast else cs

/-- The full cleaning chain of parsePhpArray, lines 106 to 114 of the
source: open-tag strip, close-tag strip, return strip, terminator strip,
trim, then one layer of enclosing brackets. -/
def cleanContent (cs : Str) : Str :=
  let s1 := phpOpenF cs.length cs true
  let s2 := closeTag s1
  let s3 := returnF s2.length s2 true
  let s4 := semiF s3.length s3
  stripRBr (stripLBr (jsTrim s4))

/-! ## The two regex passes (extension.ts lines 121 to 142) -/

/-- The three quote characters of the character class in both patterns. -/
def isQuote (c : Char) : Bool := c == qS || c == qD || c == qB

/-- Scanner for the lazy quoted-content group followed by the closing
backreference: consumes either a backslash-escaped non-terminator character
or a plain character that is neither the quote nor a backslash, until the
closing quote.  Returns the raw matched content (escapes kept verbatim) and
the remainder after the closing quote; `none` when the attempt fails. -/
def scanQ (q : Char) : Str → Option (Str × Str)
  | [] => none
  | c :: rest =>
    if c == q then some ([], rest)
    else if c == bsl then
      match rest with
      | [] => none
      | d :: rest2 =>
        if isNL d then none
        else (scanQ q rest2).map (fun p => (bsl :: d :: p.1, p.2))
    else (scanQ q rest).map (fun p => (c :: p.1, p.2))

/-- Greedy whitespace skip, for the two `\s*` gaps around the arrow. -/
def skipWs (cs : Str) : Str := cs.dropWhile isJsWs

/-- The middle of both patterns: whitespace, the arrow, whitespace. -/
def matchArrow (cs : Str) : Option Str :=
  match skipWs cs with
  | '=' :: '>' :: r => some (skipWs r)
  | _ => none

/-- One anchored attempt of the flat-pair pattern at the current position:
quoted key, arrow, quoted value (each side with its own pairwise-matched
quote character).  Returns key, value, and the remainder after the match;
a failed component fails the whole attempt (written with bind, which is the
same failure propagation the backtracking analysis justifies). -/
def tryFlatAt (cs : Str) : Option (Str × Str × Str) :=
  match cs with
  | [] => none
  | c :: rest =>
    if isQuote c then
      (scanQ c rest).bind (fun kr =>
        (matchArrow kr.2).bind (fun r2 =>
          match r2 with
          | [] => none
          | d :: r3 =>
            if isQuote d then
              (scanQ d r3).map (fun vr => (kr.1, vr.1, vr.2))
            else none))
    else none

/-- One anchored attempt of the nested-array pattern at the current
position: quoted key, arrow, open bracket, then the lazy any-character group
up to the first close bracket. -/
def tryNestedAt (cs : Str) : Option (Str × Str × Str) :=
  match cs with
  | [] => none
  | c :: rest =>
    if isQuote c then
      (scanQ c rest).bind (fun kr =>
        (matchArrow kr.2).bind (fun r2 =>
          match r2 with
          | '[' :: r3 =>
            if r3.any (fun x => x == ']') then
              some (kr.1, r3.takeWhile (fun x => x != ']'),
                    (r3.dropWhile (fun x => x != ']')).drop 1)
            else none
          | _ => none))
    else none

/-- Global exec loop for the flat pattern: leftmost matches, continuing
after each match (non-overlapping).  Fuel equals the length of the text;
every step consumes at least one character. -/
def flatScanF : Nat → Str → List (Str × Str)
  | 0, _ => []
  | _ + 1, [] => []
  | fuel + 1, c :: rest =>
    match tryFlatAt (c :: rest) with
    | some kvr => (kvr.1, kvr.2.1) :: flatScanF fuel kvr.2.2
    | none => flatScanF fuel rest

def flatScan (cs : Str) : List (Str × Str) := flatScanF cs.length cs

/-- Global exec loop for the nested pattern. -/
def nestedScanF : Nat → Str → List (Str × Str)
  | 0, _ => []
  | _ + 1, [] => []
  | fuel + 1, c :: rest =>
    match tryNestedAt (c :: rest) with
    | some kvr => (kvr.1, kvr.2.1) :: nestedScanF fuel kvr.2.2
    | none => nestedScanF fuel rest

def nestedScan (cs : Str) : List (Str × Str) := nestedScanF cs.length cs

/-! ## Parse result and parsePhpArray -/

/-- TranslationNode: a leaf string value or a mapping.  The mapping is a
list of assignment events in source order; the most recent assignment for a
key wins (`jsLookup`), which models assignment to a JavaScript object. -/
inductive PT : Type where
  | leaf : Str → PT
  | map : List (Str × PT) → PT

/-- Lookup of the most recent assignment for a key. -/
def jsLookup : List (Str × PT) → Str → Option PT
  | [], _ => none
  | e :: rest, k =>
    match jsLookup rest k with
    | some v => some v
    | none => if e.1 = k then some e.2 else none

/-- parsePhpArray (extension.ts lines 101 to 150): clean, run the flat pass,
then the nested pass, whose entries are appended after the flat entries so
that a duplicate key is won by the nested result.  Each nested body is
re-wrapped in brackets and parsed recursively.  The fuel only bounds the
recursion depth; the top-level wrapper supplies length + 1, which exceeds
the depth because each recursive argument is strictly shorter. -/
def parsePhpArrayF : Nat → Str → PT
  | 0, _ => PT.map []
  | fuel + 1, content =>
    let cleaned := cleanContent content
    let flats := (flatScan cleaned).map (fun p => (p.1, PT.leaf p.2))
    let nesteds := (nestedScan cleaned).map
      (fun p => (p.1, parsePhpArrayF fuel ('[' :: p.2 ++ [']'])))
    PT.map (flats ++ nesteds)

def parsePhpArray (content : Str) : PT :=
  parsePhpArrayF (content.length + 1) content

/-! ## Key resolver (extension.ts lines 153 to 171) -/

/-- The split on the dot character, keeping empty pieces, as the JavaScript
split does; the empty string yields one empty segment. -/
def splitOnDot : Str → List Str
  | [] => [[]]
  | c :: rest =>
    if c == '.' then [] :: splitOnDot rest
    else
      match splitOnDot rest with
      | s :: ss => (c :: s) :: ss
      | [] => [[c]]

/-- Rejoin of segments with dots, as the JavaScript join does. -/
def joinDot : List Str → Str
  | [] => []
  | [s] => s
  | s :: rest => s ++ '.' :: joinDot rest

/-- The walk of getNestedValue: descend through mappings by segment; a leaf
met early, a missing key, or a mapping left at the end give none; only a
terminal leaf gives its string. -/
def walkPath : List Str → PT → Option Str
  | [], PT.leaf s => some s
  | [], PT.map _ => none
  | k :: ks, PT.map es =>
    match jsLookup es k with
    | some t => walkPath ks t
    | none => none
  | _ :: _, PT.leaf _ => none

def getNestedValue (obj : PT) (keyPath : Str) : Option Str :=
  walkPath (splitOnDot keyPath) obj

/-- The node reached by descending through mappings without the terminal
leaf restriction (used to state which terminal nodes resolve). -/
def nodeAt : List Str → PT → Option PT
  | [], t => some t
  | k :: ks, PT.map es =>
    match jsLookup es k with
    | some t => nodeAt ks t
    | none => none
  | _ :: _, PT.leaf _ => none

/-! ## Location finder (extension.ts lines 174 to 199) -/

/-- The split on the line feed character, as the JavaScript split does. -/
def splitOnNL : Str → List Str
  | [] => [[]]
  | c :: rest =>
    if c == nlC then [] :: splitOnNL rest
    else
      match splitOnNL rest with
      | s :: ss => (c :: s) :: ss
      | [] => [[c]]

/-- First index at which the pattern occurs as a contiguous sublist
(JavaScript indexOf). -/
def subIdx (pat : Str) : Str → Option Nat
  | [] => if pat.isEmpty then some 0 else none
  | c :: rest =>
    if pat.isPrefixOf (c :: rest) then some 0
    else (subIdx pat rest).map (· + 1)

/-- One line of the search: the three quote styles are tried in order
(single, double, backtick) and the first style present wins with its own
index. -/
def lineHit (fk line : Str) : Option Nat :=
  match subIdx (qS :: fk ++ [qS]) line with
  | some i => some i
  | none =>
    match subIdx (qD :: fk ++ [qD]) line with
    | some i => some i
    | none => subIdx (qB :: fk ++ [qB]) line

/-- Top-to-bottom scan of the lines for the first hit. -/
def findHit (fk : Str) : Nat → List Str → Option (Nat × Nat)
  | _, [] => none
  | i, ln :: rest =>
    match lineHit fk ln with
    | some col => some (i, col)
    | none => findHit fk (i + 1) rest

/-- The last segment of a dotted path (`keys[keys.length - 1]`). -/
def lastSeg (kp : Str) : Str := (splitOnDot kp).getLastD []

def findTranslationInContent (content keyPath : Str) : Option (Nat × Nat) :=
  findHit (lastSeg keyPath) 0 (splitOnNL content)

/-! ## Translation store (extension.ts lines 73 to 98, 202 to 345)

The file system is explicit: existing directories, the subdirectory listing
of the language root, and file contents by absolute path.  Paths are joined
with a slash; the model assumes normalized path inputs. -/

structure TranslationResult where
  value : Str
  filePath : Str
  line : Nat
  column : Nat
deriving DecidableEq

abbrev Cache := List (Str × PT)

def cacheGet : Cache → Str → Option PT
  | [], _ => none
  | e :: rest, k => if e.1 = k then some e.2 else cacheGet rest k

/-- Map.set: the new entry shadows any older entry with the same key. -/
def cacheSet (c : Cache) (k : Str) (v : PT) : Cache := (k, v) :: c

structure FS where
  root : Str
  dirs : List Str
  localeDirs : List Str
  files : List (Str × Str)

def fsLook : List (Str × Str) → Str → Option Str
  | [], _ => none
  | e :: rest, p => if e.1 = p then some e.2 else fsLook rest p

/-- fs.readFileSync guarded by fs.existsSync: some content when the file
exists. -/
def fsReadFile (fs : FS) (p : Str) : Option Str := fsLook fs.files p

def dirEx (fs : FS) (p : Str) : Bool := fs.dirs.any (fun d => d == p)

/-- The probe list of getLangDirectory (extension.ts lines 78 to 84). -/
def langCandidates (fs : FS) (locale : Str) : List Str :=
  [fs.root ++ ("/test-project/lang/").toList ++ locale,
   fs.root ++ ("/lang/").toList ++ locale,
   fs.root ++ ("/resources/lang/").toList ++ locale,
   fs.root ++ ("/resources/languages/").toList ++ locale,
   fs.root ++ ("/app/lang/").toList ++ locale]

/-- getLangDirectory: the first probed directory that exists, else the
default fallback (extension.ts lines 73 to 98). -/
def getLangDirectory (fs : FS) (locale : Str) : Str :=
  match (langCandidates fs locale).find? (fun p => dirEx fs p) with
  | some p => p
  | none => fs.root ++ ("/lang/").toList ++ locale

/-- path.dirname for normalized absolute paths: drop the last component. -/
def parentDir (p : Str) : Str :=
  ((p.reverse.dropWhile (fun c => c != '/')).drop 1).reverse

/-- getAvailableLocales (extension.ts lines 269 to 287): the subdirectory
names of the parent of the default-locale language directory, with the
fallback list when that parent does not exist.  The field localeDirs of the
explicit file system models the readdirSync listing filtered to
directories. -/
def getAvailableLocales (fs : FS) : List Str :=
  if dirEx fs (parentDir (getLangDirectory fs (("en").toList))) then fs.localeDirs
  else [("en").toList]

/-- The destructuring split of a translation key into file segment and
remaining dotted path. -/
def splitKey (tk : Str) : Str × Str :=
  match splitOnDot tk with
  | [] => ([], [])
  | f :: rest => (f, joinDot rest)

def phpExt : Str := (".php").toList

/-- The candidate file path of a translation key in a locale. -/
def localeFilePath (fs : FS) (tk locale : Str) : Str :=
  getLangDirectory fs locale ++ '/' :: (splitKey tk).1 ++ phpExt

/-- The cache key of resolveTranslationForLocale (extension.ts line 317). -/
def localeCacheKey (locale filePath : Str) : Str := locale ++ ':' :: filePath

/-- The mapping used for the lookup: the cached one if present, else the
parse of the file content read from disk. -/
def computedT (cache : Cache) (cacheKey content : Str) : PT :=
  match cacheGet cache cacheKey with
  | some t => t
  | none => parsePhpArray content

structure ResolveOut where
  res : Option TranslationResult
  cache : Cache
  reads : Nat

/-- The shared body of resolveTranslation and resolveTranslationForLocale
(extension.ts lines 216 to 260 and 313 to 339): existence check, cache
lookup keyed by cacheKey with parse-and-store on miss (one read), lookup of
the key path, the falsy-value check, and on success a further read of the
file for the location scan with the default position (0, 0). -/
def resolveCore (fs : FS) (cache : Cache) (cacheKey filePath keyPath : Str) :
    ResolveOut :=
  match fsReadFile fs filePath with
  | none => ⟨none, cache, 0⟩
  | some content =>
    let t := computedT cache cacheKey content
    let cache1 := match cacheGet cache cacheKey with
      | some _ => cache
      | none => cacheSet cache cacheKey t
    let r1 : Nat := match cacheGet cache cacheKey with
      | some _ => 0
      | none => 1
    match getNestedValue t keyPath with
    | none => ⟨none, cache1, r1⟩
    | some v =>
      if v = [] then ⟨none, cache1, r1⟩
      else
        let loc := findTranslationInContent content keyPath
        ⟨some ⟨v, filePath, ((loc.map Prod.fst).getD 0), ((loc.map Prod.snd).getD 0)⟩,
         cache1, r1 + 1⟩

/-- resolveTranslation: default locale directory, cache keyed by the bare
file path (extension.ts lines 202 to 266). -/
def resolveTranslation (fs : FS) (cache : Cache) (tk : Str) : ResolveOut :=
  let fp := localeFilePath fs tk (("en").toList)
  resolveCore fs cache fp fp (splitKey tk).2

/-- resolveTranslationForLocale: locale-specific directory, cache keyed by
locale and file path (extension.ts lines 305 to 345). -/
def resolveTranslationForLocale (fs : FS) (cache : Cache) (tk locale : Str) :
    ResolveOut :=
  let fp := localeFilePath fs tk locale
  resolveCore fs cache (localeCacheKey locale fp) fp (splitKey tk).2

/-- The loop of getAllTranslations: resolve each locale in order, keep only
successful results, threading the shared cache. -/
def gatherLocales (fs : FS) (tk : Str) : List Str → Cache → (List (Str × Str)) × Cache × Nat
  | [], c => ([], c, 0)
  | l :: rest, c =>
    let o := resolveTranslationForLocale fs c tk l
    let acc := gatherLocales fs tk rest o.cache
    match o.res with
    | some tr => ((l, tr.value) :: acc.1, acc.2.1, o.reads + acc.2.2)
    | none => (acc.1, acc.2.1, o.reads + acc.2.2)

/-- getAllTranslations (extension.ts lines 290 to 302). -/
def getAllTranslations (fs : FS) (cache : Cache) (tk : Str) :
    (List (Str × Str)) × Cache × Nat :=
  gatherLocales fs tk (getAvailableLocales fs) cache

/-! ## Templates used by the claims -/

/-- The arrow glue with single spaces. -/
def gArr : Str := [' ', '=', '>', ' ']

/-- A single-quoted string literal. -/
def sq (s : Str) : Str := qS :: s ++ [qS]

/-- A flat pair with single-quoted key and value. -/
def pairB (k v : Str) : Str := sq k ++ gArr ++ sq v

/-- A nested pair with one inner flat pair. -/
def nestB (a b v : Str) : Str := sq a ++ gArr ++ '[' :: pairB b v ++ [']']

/-- The source prefix of a translation file up to the open bracket. -/
def phpHeader : Str := ['<', '?', 'p', 'h', 'p', ' ', 'r', 'e', 't', 'u', 'r', 'n', ' ', '[']

/-- A full translation file around a body. -/
def phpFile (body : Str) : Str := phpHeader ++ body ++ [']', ';']

/-- Characters safe inside a single-quoted value for the universal claims:
no quotes, no backslash, no brackets, no tag or arrow or terminator
characters, no line terminators. -/
def vSafe (c : Char) : Bool :=
  !(c == qS || c == qD || c == qB || c == bsl || c == '[' || c == ']' ||
    c == '<' || c == '>' || c == '=' || c == ';' || c == '?' ||
    c == nlC || c == crC)

/-- Characters safe inside a key: value-safe and not the dot. -/
def kSafe (c : Char) : Bool := vSafe c && !(c == '.')

/-- The duplicate-key body: a flat pair and a nested pair under the same
key at the same mapping level. -/
def dupB (x f b w : Str) : Str := pairB x f ++ ',' :: ' ' :: nestB x b w

/-- A cleaned array literal body holding a list of flat pairs, each followed
by a comma separator (a trailing comma is valid PHP array syntax). -/
def listBody : List (Str × Str) → Str
  | [] => []
  | p :: rest => pairB p.1 p.2 ++ ',' :: ' ' :: listBody rest

/-! ## Concrete fixtures used by the witnesses and counterexamples -/

/-- A workspace with one locale directory and one translation file. -/
def fsA : FS :=
  { root := ("/ws").toList
  , dirs := [("/ws/lang").toList, ("/ws/lang/en").toList]
  , localeDirs := [("en").toList]
  , files := [(("/ws/lang/en/auth.php").toList,
      phpFile (pairB (("failed").toList) (("Invalid credentials.").toList)))] }

/-- The translation key of the fixture file. -/
def keyA : Str := ("auth.failed").toList

/-- A workspace whose translation file defines an empty-string value. -/
def fsE : FS :=
  { root := ("/ws").toList
  , dirs := [("/ws/lang").toList, ("/ws/lang/en").toList]
  , localeDirs := [("en").toList]
  , files := [(("/ws/lang/en/auth.php").toList,
      phpFile (pairB (("k").toList) []))] }

/-- A workspace with three locale directories of which only two hold the
queried file. -/
def fs6 : FS :=
  { root := ("/ws").toList
  , dirs := [("/ws/lang").toList, ("/ws/lang/en").toList,
      ("/ws/lang/es").toList, ("/ws/lang/fr").toList]
  , localeDirs := [("en").toList, ("es").toList, ("fr").toList]
  , files := [(("/ws/lang/en/welcome.php").toList,
      phpFile (pairB (("title").toList) (("Welcome").toList))),
      (("/ws/lang/es/welcome.php").toList,
      phpFile (pairB (("title").toList) (("Bienvenido").toList)))] }

/-! ## Basic character facts -/

@[simp] lemma isQuote_qS : isQuote qS = true := by decide
@[simp] lemma isQuote_qD : isQuote qD = true := by decide
@[simp] lemma isQuote_qB : isQuote qB = true := by decide
@[simp] lemma isJsWs_space : isJsWs ' ' = true := by decide
@[simp] lemma isJsWs_qS : isJsWs qS = false := by decide
@[simp] lemma isJsWs_lb : isJsWs '[' = false := by decide
@[simp] lemma isJsWs_eqc : isJsWs '=' = false := by decide
@[simp] lemma isJsWs_gtc : isJsWs '>' = false := by decide

/-- The consequences of value safety used by the scanner lemmas. -/
lemma vSafe_facts {c : Char} (h : vSafe c = true) :
    c ≠ qS ∧ c ≠ qD ∧ c ≠ qB ∧ c ≠ bsl ∧ c ≠ '[' ∧ c ≠ ']' ∧ c ≠ '<' ∧
    c ≠ '>' ∧ c ≠ '=' ∧ c ≠ ';' ∧ c ≠ '?' ∧ isNL c = false ∧ isQuote c = false := by
  refine ⟨fun e => ?_, fun e => ?_, fun e => ?_, fun e => ?_, fun e => ?_,
    fun e => ?_, fun e => ?_, fun e => ?_, fun e => ?_, fun e => ?_, fun e => ?_, ?_, ?_⟩
  case _ => subst e; exact absurd h (by decide)
  case _ => subst e; exact absurd h (by decide)
  case _ => subst e; exact absurd h (by decide)
  case _ => subst e; exact absurd h (by decide)
  case _ => subst e; exact absurd h (by decide)
  case _ => subst e; exact absurd h (by decide)
  case _ => subst e; exact absurd h (by decide)
  case _ => subst e; exact absurd h (by decide)
  case _ => subst e; exact absurd h (by decide)
  case _ => subst e; exact absurd h (by decide)
  case _ => subst e; exact absurd h (by decide)
  case _ =>
    cases e : isNL c
    · rfl
    · exfalso
      have e2 : c = nlC ∨ c = crC := by simpa [isNL] using e
      rcases e2 with e2 | e2 <;> subst e2 <;> exact absurd h (by decide)
  case _ =>
    cases e : isQuote c
    · rfl
    · exfalso
      have e2 : (c = qS ∨ c = qD) ∨ c = qB := by simpa [isQuote, or_assoc] using e
      rcases e2 with (e2 | e2) | e2 <;> subst e2 <;> exact absurd h (by decide)

lemma kSafe_facts {c : Char} (h : kSafe c = true) : vSafe c = true ∧ c ≠ '.' := by
  have h2 := h
  simp only [kSafe, Bool.and_eq_true, Bool.not_eq_true', beq_eq_false_iff_ne] at h2
  exact h2

/-! ## Manual unfolding lemmas for the two-level matches -/

lemma scanQ_cons (q c : Char) (rest : Str) :
    scanQ q (c :: rest) =
      if c == q then some ([], rest)
      else if c == bsl then
        match rest with
        | [] => none
        | d :: rest2 =>
          if isNL d then none
          else (scanQ q rest2).map (fun p => (bsl :: d :: p.1, p.2))
      else (scanQ q rest).map (fun p => (c :: p.1, p.2)) := by
  cases rest <;> rfl

lemma closeTag_id (cs : Str) : '?' ∉ cs → closeTag cs = cs := by
  induction cs using closeTag.induct with
  | case1 rest ih =>
    intro h
    exact absurd (List.mem_cons_self _ _) h
  | case2 c rest hne ih =>
    intro h
    rw [closeTag.eq_2 c rest hne, ih (fun hm => h (List.mem_cons_of_mem c hm))]
  | case3 => intro h; rfl

/-! ## Quoted-content scanner lemmas -/

/-- On content free of the quote and of backslashes, the scanner stops at
the appended closing quote. -/
lemma scanQ_append (q : Char) (s r : Str) (h : ∀ c ∈ s, c ≠ q ∧ c ≠ bsl) :
    scanQ q (s ++ q :: r) = some (s, r) := by
  induction s with
  | nil => rw [List.nil_append, scanQ_cons]; simp
  | cons c s ih =>
    obtain ⟨h1, h2⟩ := h c (List.mem_cons_self c s)
    have e1 : (c == q) = false := by simpa using h1
    have e2 : (c == bsl) = false := by simpa using h2
    have ih2 := ih (fun x hx => h x (List.mem_cons_of_mem c hx))
    rw [List.cons_append, scanQ_cons, e1, e2, ih2]
    simp

/-- The remainder of a successful content scan is strictly shorter. -/
lemma scanQ_len {q : Char} : ∀ {cs : Str} {pr : Str × Str},
    scanQ q cs = some pr → pr.2.length < cs.length := by
  intro cs
  induction cs using scanQ.induct q with
  | case1 => intro pr h; exact absurd h (by simp [scanQ])
  | case2 c rest h1 =>
    intro pr h
    rw [scanQ_cons, if_pos h1] at h
    cases h
    simp
  | case3 c h1 h2 =>
    intro pr h
    rw [scanQ_cons, if_neg h1, if_pos h2] at h
    exact Option.noConfusion h
  | case4 c h1 h2 d rest2 h3 =>
    intro pr h
    rw [scanQ_cons, if_neg h1, if_pos h2] at h
    simp only [if_pos h3] at h
    exact Option.noConfusion h
  | case5 c h1 h2 d rest2 h3 ih =>
    intro pr h
    rw [scanQ_cons, if_neg h1, if_pos h2] at h
    simp only [if_neg h3] at h
    cases hm : scanQ q rest2 with
    | none => rw [hm] at h; exact Option.noConfusion h
    | some p2 =>
      rw [hm] at h
      cases h
      have hl : p2.2.length < rest2.length := ih hm
      simp only [List.length_cons]
      simpa using Nat.lt_trans hl (by omega)
  | case6 c rest h1 h2 ih =>
    intro pr h
    rw [scanQ_cons, if_neg h1, if_neg h2] at h
    cases hm : scanQ q rest with
    | none => rw [hm] at h; exact Option.noConfusion h
    | some p2 =>
      rw [hm] at h
      cases h
      have hl : p2.2.length < rest.length := ih hm
      simpa using Nat.lt_trans hl (by omega)

/-- Every character of the remainder of a successful content scan occurs in
the scanned text. -/
lemma scanQ_mem {q : Char} : ∀ {cs : Str} {pr : Str × Str},
    scanQ q cs = some pr → ∀ x ∈ pr.2, x ∈ cs := by
  intro cs
  induction cs using scanQ.induct q with
  | case1 => intro pr h; exact absurd h (by simp [scanQ])
  | case2 c rest h1 =>
    intro pr h
    rw [scanQ_cons, if_pos h1] at h
    cases h
    intro x hx
    exact List.mem_cons_of_mem c hx
  | case3 c h1 h2 =>
    intro pr h
    rw [scanQ_cons, if_neg h1, if_pos h2] at h
    exact Option.noConfusion h
  | case4 c h1 h2 d rest2 h3 =>
    intro pr h
    rw [scanQ_cons, if_neg h1, if_pos h2] at h
    simp only [if_pos h3] at h
    exact Option.noConfusion h
  | case5 c h1 h2 d rest2 h3 ih =>
    intro pr h
    rw [scanQ_cons, if_neg h1, if_pos h2] at h
    simp only [if_neg h3] at h
    cases hm : scanQ q rest2 with
    | none => rw [hm] at h; exact Option.noConfusion h
    | some p2 =>
      rw [hm] at h
      cases h
      intro x hx
      simp only at hx
      exact List.mem_cons_of_mem _ (List.mem_cons_of_mem _ (ih hm x hx))
  | case6 c rest h1 h2 ih =>
    intro pr h
    rw [scanQ_cons, if_neg h1, if_neg h2] at h
    cases hm : scanQ q rest with
    | none => rw [hm] at h; exact Option.noConfusion h
    | some p2 =>
      rw [hm] at h
      cases h
      intro x hx
      simp only at hx
      exact List.mem_cons_of_mem _ (ih hm x hx)

/-! ## Arrow lemmas -/

lemma skipWs_cons_ws {c : Char} (cs : Str) (h : isJsWs c = true) :
    skipWs (c :: cs) = skipWs cs := by
  simp [skipWs, List.dropWhile_cons, h]

lemma skipWs_cons_nws {c : Char} (cs : Str) (h : isJsWs c = false) :
    skipWs (c :: cs) = c :: cs := by
  simp [skipWs, List.dropWhile_cons, h]

lemma skipWs_mem {cs : Str} {x : Char} (h : x ∈ skipWs cs) : x ∈ cs :=
  (List.dropWhile_sublist isJsWs).mem h

lemma skipWs_len (cs : Str) : (skipWs cs).length ≤ cs.length :=
  (List.dropWhile_sublist isJsWs).length_le

lemma matchArrow_ws_cons {c : Char} (cs : Str) (h : isJsWs c = true) :
    matchArrow (c :: cs) = matchArrow cs := by
  unfold matchArrow
  rw [skipWs_cons_ws cs h]

lemma matchArrow_cons_ne {c : Char} (cs : Str) (h1 : isJsWs c = false)
    (h2 : c ≠ '=') : matchArrow (c :: cs) = none := by
  unfold matchArrow
  rw [skipWs_cons_nws cs h1]
  split
  · next r heq => exact absurd (by injection heq) h2
  · rfl

lemma matchArrow_gArr {c : Char} (r : Str) (h : isJsWs c = false) :
    matchArrow (gArr ++ c :: r) = some (c :: r) := by
  have e : skipWs (gArr ++ c :: r) = '=' :: '>' :: ' ' :: c :: r := by
    simp [gArr, skipWs, List.dropWhile_cons]
  unfold matchArrow
  rw [e]
  show some (skipWs (' ' :: c :: r)) = some (c :: r)
  rw [skipWs_cons_ws _ (by decide), skipWs_cons_nws _ h]

/-- After safe junk, an arrow attempt that runs into a single quote fails. -/
lemma matchArrow_junk (b : Str) (r : Str) (h : ∀ c ∈ b, vSafe c = true) :
    matchArrow (b ++ qS :: r) = none := by
  induction b with
  | nil => exact matchArrow_cons_ne _ (by decide) (by decide)
  | cons c b ih =>
    have hv := h c (List.mem_cons_self c b)
    have ih2 := ih (fun x hx => h x (List.mem_cons_of_mem c hx))
    cases hw : isJsWs c with
    | true => rw [List.cons_append, matchArrow_ws_cons _ hw]; exact ih2
    | false =>
      exact matchArrow_cons_ne _ hw (vSafe_facts hv).2.2.2.2.2.2.2.2.1

lemma matchArrow_mem {cs r : Str} (h : matchArrow cs = some r) :
    ∀ x ∈ r, x ∈ cs := by
  unfold matchArrow at h
  split at h
  · next rr heq =>
    cases h
    intro x hx
    have h1 : x ∈ rr := skipWs_mem hx
    have h2 : x ∈ skipWs cs := by
      rw [heq]
      exact List.mem_cons_of_mem _ (List.mem_cons_of_mem _ h1)
    exact skipWs_mem h2
  · exact Option.noConfusion h

lemma matchArrow_len {cs r : Str} (h : matchArrow cs = some r) :
    r.length + 2 ≤ cs.length := by
  unfold matchArrow at h
  split at h
  · next rr heq =>
    cases h
    have h1 := skipWs_len cs
    have h2 := skipWs_len rr
    rw [heq] at h1
    simp only [List.length_cons] at h1
    omega
  · exact Option.noConfusion h

/-! ## Attempt lemmas -/

lemma tryFlatAt_nonquote {c : Char} (rest : Str) (h : isQuote c = false) :
    tryFlatAt (c :: rest) = none := by
  simp [tryFlatAt, h]

lemma tryNestedAt_nonquote {c : Char} (rest : Str) (h : isQuote c = false) :
    tryNestedAt (c :: rest) = none := by
  simp [tryNestedAt, h]

/-- A successful flat attempt on the template text. -/
lemma tryFlatAt_pair (k v rest : Str) (hk : ∀ c ∈ k, c ≠ qS ∧ c ≠ bsl)
    (hv : ∀ c ∈ v, c ≠ qS ∧ c ≠ bsl) :
    tryFlatAt (qS :: (k ++ qS :: (gArr ++ qS :: (v ++ qS :: rest)))) =
      some (k, v, rest) := by
  simp [tryFlatAt, scanQ_append _ _ _ hk, matchArrow_gArr _ (by decide : isJsWs qS = false),
    scanQ_append _ _ _ hv]

/-- A flat attempt whose value position holds an open bracket fails. -/
lemma tryFlatAt_nestshape (k X : Str) (hk : ∀ c ∈ k, c ≠ qS ∧ c ≠ bsl) :
    tryFlatAt (qS :: (k ++ qS :: (gArr ++ '[' :: X))) = none := by
  simp [tryFlatAt, scanQ_append _ _ _ hk, matchArrow_gArr _ (by decide : isJsWs '[' = false),
    (by decide : isQuote '[' = false)]

/-- A flat attempt starting at a quote whose content scan lands before a
failed arrow fails. -/
lemma tryFlatAt_junkquote (junk tail : Str) (hj : ∀ c ∈ junk, c ≠ qS ∧ c ≠ bsl)
    (hfail : matchArrow tail = none) :
    tryFlatAt (qS :: (junk ++ qS :: tail)) = none := by
  simp [tryFlatAt, scanQ_append _ _ _ hj, hfail]

lemma tryNestedAt_junkquote (junk tail : Str) (hj : ∀ c ∈ junk, c ≠ qS ∧ c ≠ bsl)
    (hfail : matchArrow tail = none) :
    tryNestedAt (qS :: (junk ++ qS :: tail)) = none := by
  simp [tryNestedAt, scanQ_append _ _ _ hj, hfail]

/-- A nested attempt whose bracket position holds a quote fails. -/
lemma tryNestedAt_flatshape (k X : Str) (hk : ∀ c ∈ k, c ≠ qS ∧ c ≠ bsl) :
    tryNestedAt (qS :: (k ++ qS :: (gArr ++ qS :: X))) = none := by
  simp only [tryNestedAt, isQuote_qS, if_true, scanQ_append _ _ _ hk, Option.some_bind,
    matchArrow_gArr _ (by decide : isJsWs qS = false)]
  split
  · next r3 heq =>
    exfalso
    have : qS = '[' := by injection heq
    exact absurd this (by decide)
  · rfl

lemma takeUntil_rb (inner rest : Str) (h : ']' ∉ inner) :
    (inner ++ ']' :: rest).takeWhile (fun x => x != ']') = inner ∧
    ((inner ++ ']' :: rest).dropWhile (fun x => x != ']')).drop 1 = rest := by
  induction inner with
  | nil => simp [List.takeWhile, List.dropWhile]
  | cons c inner ih =>
    have hc : c ≠ ']' := fun e => h (e ▸ List.mem_cons_self c inner)
    have hb : (c != ']') = true := by simpa using hc
    obtain ⟨ih1, ih2⟩ := ih (fun hm => h (List.mem_cons_of_mem c hm))
    constructor
    · rw [List.cons_append, List.takeWhile_cons, hb]
      simpa using ih1
    · rw [List.cons_append, List.dropWhile_cons, hb]
      simpa using ih2

/-- A successful nested attempt on the template text. -/
lemma tryNestedAt_nest (k inner rest : Str) (hk : ∀ c ∈ k, c ≠ qS ∧ c ≠ bsl)
    (hin : ']' ∉ inner) :
    tryNestedAt (qS :: (k ++ qS :: (gArr ++ '[' :: (inner ++ ']' :: rest)))) =
      some (k, inner, rest) := by
  have hany : (inner ++ ']' :: rest).any (fun x => x == ']') = true := by
    rw [List.any_eq_true]
    exact ⟨']', by simp, by simp⟩
  obtain ⟨e1, e2⟩ := takeUntil_rb inner rest hin
  have e3 : ((inner ++ ']' :: rest).dropWhile (fun x => x != ']')).tail = rest := by
    rw [← List.drop_one]
    exact e2
  simp [tryNestedAt, scanQ_append _ _ _ hk,
    matchArrow_gArr _ (by decide : isJsWs '[' = false), hany, e1, e2, e3]


lemma tryFlatAt_cons (c : Char) (rest : Str) :
    tryFlatAt (c :: rest) =
      if isQuote c then
        (scanQ c rest).bind (fun kr =>
          (matchArrow kr.2).bind (fun r2 =>
            match r2 with
            | [] => none
            | d :: r3 =>
              if isQuote d then
                (scanQ d r3).map (fun vr => (kr.1, vr.1, vr.2))
              else none))
      else none := rfl

lemma tryNestedAt_cons (c : Char) (rest : Str) :
    tryNestedAt (c :: rest) =
      if isQuote c then
        (scanQ c rest).bind (fun kr =>
          (matchArrow kr.2).bind (fun r2 =>
            match r2 with
            | '[' :: r3 =>
              if r3.any (fun x => x == ']') then
                some (kr.1, r3.takeWhile (fun x => x != ']'),
                      (r3.dropWhile (fun x => x != ']')).drop 1)
              else none
            | _ => none))
      else none := rfl

/-! ## Length and membership bounds on attempts -/

lemma tryFlatAt_len : ∀ {cs : Str} {pr : Str × Str × Str},
    tryFlatAt cs = some pr → pr.2.2.length < cs.length := by
  intro cs pr h
  cases cs with
  | nil => exact absurd h (by simp [tryFlatAt])
  | cons c rest =>
    rw [tryFlatAt_cons] at h
    split at h
    · cases hs : scanQ c rest with
      | none => rw [hs] at h; exact Option.noConfusion h
      | some kr =>
        rw [hs, Option.some_bind] at h
        cases hm : matchArrow kr.2 with
        | none => rw [hm] at h; exact Option.noConfusion h
        | some r2 =>
          rw [hm, Option.some_bind] at h
          cases r2 with
          | nil =>
            exact Option.noConfusion (show (none : Option (Str × Str × Str)) = some pr from h)
          | cons d r3 =>
            have h2 : (if isQuote d then
                (scanQ d r3).map (fun vr => (kr.1, vr.1, vr.2)) else none) = some pr := h
            split at h2
            · cases hv : scanQ d r3 with
              | none => rw [hv] at h2; exact Option.noConfusion h2
              | some vr =>
                rw [hv] at h2
                cases h2
                have l1 := scanQ_len hs
                have l2 := matchArrow_len hm
                have l3 := scanQ_len hv
                simp only [List.length_cons] at *
                omega
            · exact Option.noConfusion h2
    · exact Option.noConfusion h

lemma tryNestedAt_len : ∀ {cs : Str} {pr : Str × Str × Str},
    tryNestedAt cs = some pr → pr.2.2.length < cs.length := by
  intro cs pr h
  cases cs with
  | nil => exact absurd h (by simp [tryNestedAt])
  | cons c rest =>
    rw [tryNestedAt_cons] at h
    split at h
    · cases hs : scanQ c rest with
      | none => rw [hs] at h; exact Option.noConfusion h
      | some kr =>
        rw [hs, Option.some_bind] at h
        cases hm : matchArrow kr.2 with
        | none => rw [hm] at h; exact Option.noConfusion h
        | some r2 =>
          rw [hm, Option.some_bind] at h
          split at h
          · rename_i xv r3
            split at h
            · cases h
              have l1 := scanQ_len hs
              have l2 := matchArrow_len hm
              have l4 : ((r3.dropWhile (fun x => x != ']')).drop 1).length ≤ r3.length := by
                have h5 : (r3.dropWhile (fun x => x != ']')).length ≤ r3.length :=
                  List.Sublist.length_le (List.dropWhile_sublist _)
                have h6 := List.length_drop 1 (r3.dropWhile (fun x => x != ']'))
                omega
              simp only [List.length_cons] at *
              omega
            · exact Option.noConfusion h
          · exact Option.noConfusion h
    · exact Option.noConfusion h

lemma tryNestedAt_bracket : ∀ {cs : Str} {pr : Str × Str × Str},
    tryNestedAt cs = some pr → '[' ∈ cs := by
  intro cs pr h
  cases cs with
  | nil => exact absurd h (by simp [tryNestedAt])
  | cons c rest =>
    rw [tryNestedAt_cons] at h
    split at h
    · cases hs : scanQ c rest with
      | none => rw [hs] at h; exact Option.noConfusion h
      | some kr =>
        rw [hs, Option.some_bind] at h
        cases hm : matchArrow kr.2 with
        | none => rw [hm] at h; exact Option.noConfusion h
        | some r2 =>
          rw [hm, Option.some_bind] at h
          split at h
          · rename_i xv r3
            have h1 : '[' ∈ '[' :: r3 := List.mem_cons_self _ _
            have h2 : '[' ∈ kr.2 := matchArrow_mem hm _ h1
            exact List.mem_cons_of_mem c (scanQ_mem hs _ h2)
          · exact Option.noConfusion h
    · exact Option.noConfusion h

/-! ## Scan loop lemmas -/

lemma flatScanF_nil (f : Nat) : flatScanF f [] = [] := by cases f <;> rfl

lemma nestedScanF_nil (f : Nat) : nestedScanF f [] = [] := by cases f <;> rfl

lemma flatScanF_congr : ∀ (f g : Nat) (cs : Str), cs.length ≤ f → cs.length ≤ g →
    flatScanF f cs = flatScanF g cs := by
  intro f
  induction f using Nat.strong_induction_on with
  | _ f IH =>
    intro g cs hf hg
    cases cs with
    | nil => rw [flatScanF_nil, flatScanF_nil]
    | cons c rest =>
      simp only [List.length_cons] at hf hg
      cases f with
      | zero => omega
      | succ f1 =>
        cases g with
        | zero => omega
        | succ g1 =>
          simp only [flatScanF]
          cases ht : tryFlatAt (c :: rest) with
          | none => exact IH f1 (by omega) g1 rest (by omega) (by omega)
          | some kvr =>
            have hl : kvr.2.2.length < rest.length + 1 := by
              have h2 := tryFlatAt_len ht
              simpa using h2
            show (kvr.1, kvr.2.1) :: flatScanF f1 kvr.2.2 =
              (kvr.1, kvr.2.1) :: flatScanF g1 kvr.2.2
            rw [IH f1 (by omega) g1 kvr.2.2 (by omega) (by omega)]

lemma nestedScanF_congr : ∀ (f g : Nat) (cs : Str), cs.length ≤ f → cs.length ≤ g →
    nestedScanF f cs = nestedScanF g cs := by
  intro f
  induction f using Nat.strong_induction_on with
  | _ f IH =>
    intro g cs hf hg
    cases cs with
    | nil => rw [nestedScanF_nil, nestedScanF_nil]
    | cons c rest =>
      simp only [List.length_cons] at hf hg
      cases f with
      | zero => omega
      | succ f1 =>
        cases g with
        | zero => omega
        | succ g1 =>
          simp only [nestedScanF]
          cases ht : tryNestedAt (c :: rest) with
          | none => exact IH f1 (by omega) g1 rest (by omega) (by omega)
          | some kvr =>
            have hl : kvr.2.2.length < rest.length + 1 := by
              have h2 := tryNestedAt_len ht
              simpa using h2
            show (kvr.1, kvr.2.1) :: nestedScanF f1 kvr.2.2 =
              (kvr.1, kvr.2.1) :: nestedScanF g1 kvr.2.2
            rw [IH f1 (by omega) g1 kvr.2.2 (by omega) (by omega)]

lemma flatScan_cons_none {c : Char} {rest : Str} (h : tryFlatAt (c :: rest) = none) :
    flatScan (c :: rest) = flatScan rest := by
  simp only [flatScan, List.length_cons, flatScanF, h]

lemma flatScan_cons_some {cs : Str} {pr : Str × Str × Str} (h : tryFlatAt cs = some pr) :
    flatScan cs = (pr.1, pr.2.1) :: flatScan pr.2.2 := by
  cases cs with
  | nil => exact absurd h (by simp [tryFlatAt])
  | cons c rest =>
    have hl : pr.2.2.length ≤ rest.length := by
      have := tryFlatAt_len h
      simp only [List.length_cons] at this
      omega
    simp only [flatScan, List.length_cons, flatScanF, h]
    rw [flatScanF_congr rest.length pr.2.2.length pr.2.2 hl le_rfl]

lemma nestedScan_cons_none {c : Char} {rest : Str} (h : tryNestedAt (c :: rest) = none) :
    nestedScan (c :: rest) = nestedScan rest := by
  simp only [nestedScan, List.length_cons, nestedScanF, h]

lemma nestedScan_cons_some {cs : Str} {pr : Str × Str × Str} (h : tryNestedAt cs = some pr) :
    nestedScan cs = (pr.1, pr.2.1) :: nestedScan pr.2.2 := by
  cases cs with
  | nil => exact absurd h (by simp [tryNestedAt])
  | cons c rest =>
    have hl : pr.2.2.length ≤ rest.length := by
      have := tryNestedAt_len h
      simp only [List.length_cons] at this
      omega
    simp only [nestedScan, List.length_cons, nestedScanF, h]
    rw [nestedScanF_congr rest.length pr.2.2.length pr.2.2 hl le_rfl]

@[simp] lemma flatScan_nil : flatScan [] = [] := rfl

@[simp] lemma nestedScan_nil : nestedScan [] = [] := rfl

/-- Positions inside non-quote characters never start a flat match. -/
lemma flatScan_append_nq (p r : Str) (h : ∀ c ∈ p, isQuote c = false) :
    flatScan (p ++ r) = flatScan r := by
  induction p with
  | nil => simp
  | cons c p ih =>
    rw [List.cons_append, flatScan_cons_none (tryFlatAt_nonquote _ (h c (List.mem_cons_self c p)))]
    exact ih (fun x hx => h x (List.mem_cons_of_mem c hx))

lemma nestedScan_append_nq (p r : Str) (h : ∀ c ∈ p, isQuote c = false) :
    nestedScan (p ++ r) = nestedScan r := by
  induction p with
  | nil => simp
  | cons c p ih =>
    rw [List.cons_append, nestedScan_cons_none (tryNestedAt_nonquote _ (h c (List.mem_cons_self c p)))]
    exact ih (fun x hx => h x (List.mem_cons_of_mem c hx))

/-- Without an open bracket the nested pass finds nothing. -/
lemma nestedScan_no_lb (cs : Str) (h : '[' ∉ cs) : nestedScan cs = [] := by
  induction cs with
  | nil => simp
  | cons c rest ih =>
    have ht : tryNestedAt (c :: rest) = none := by
      cases he : tryNestedAt (c :: rest) with
      | none => rfl
      | some pr => exact absurd (tryNestedAt_bracket he) h
    rw [nestedScan_cons_none ht]
    exact ih (fun hm => h (List.mem_cons_of_mem c hm))

/-! ## Cleaning pipeline lemmas -/

lemma phpOpenF_id : ∀ (cs : Str) (f : Nat) (b : Bool), cs.length ≤ f → '<' ∉ cs →
    phpOpenF f cs b = cs := by
  intro cs
  induction cs with
  | nil => intro f b h1 h2; cases f <;> rfl
  | cons c rest ih =>
    intro f b h1 h2
    cases f with
    | zero => simp at h1
    | succ f1 =>
      have hne : c ≠ '<' := fun e => h2 (by rw [e]; exact List.mem_cons_self _ _)
      have hc : (c == '<') = false := by simpa using hne
      simp only [phpOpenF, hc, Bool.and_false, Bool.false_and, Bool.false_eq_true, if_false]
      rw [ih f1 (isNL c) (by simpa using h1) (fun hm => h2 (List.mem_cons_of_mem c hm))]

lemma returnF_noLS : ∀ (cs : Str) (f : Nat), cs.length ≤ f →
    (∀ c ∈ cs, isNL c = false) → returnF f cs false = cs := by
  intro cs
  induction cs with
  | nil => intro f h1 h2; cases f <;> rfl
  | cons c rest ih =>
    intro f h1 h2
    cases f with
    | zero => simp at h1
    | succ f1 =>
      simp only [returnF, Bool.false_eq_true, if_false]
      rw [h2 c (List.mem_cons_self c rest)]
      rw [ih f1 (by simpa using h1) (fun x hx => h2 x (List.mem_cons_of_mem c hx))]

/-- At a line start whose first character is not whitespace and not the
first letter of the return keyword, and with no line terminator anywhere,
the return strip acts as the identity. -/
lemma returnF_LS_nonmatch (c : Char) (rest : Str) (f : Nat)
    (h1 : (c :: rest).length ≤ f) (h2 : isJsWs c = false) (h3 : c ≠ 'r')
    (h4 : ∀ x ∈ c :: rest, isNL x = false) :
    returnF f (c :: rest) true = c :: rest := by
  cases f with
  | zero => simp at h1
  | succ f1 =>
    have e1 : (c :: rest).dropWhile isJsWs = c :: rest := by
      simp [List.dropWhile_cons, h2]
    have e2 : ((c :: rest).take 6 == ['r', 'e', 't', 'u', 'r', 'n']) = false := by
      rw [List.take_succ_cons]
      have e3 : ((c :: rest.take 5) == ['r', 'e', 't', 'u', 'r', 'n']) =
          ((c == 'r') && (rest.take 5 == ['e', 't', 'u', 'r', 'n'])) := rfl
      rw [e3]
      have e4 : (c == 'r') = false := by simpa using h3
      rw [e4, Bool.false_and]
    simp only [returnF, if_true, e1, e2, Bool.false_and, Bool.false_eq_true, if_false]
    rw [h4 c (List.mem_cons_self c rest)]
    rw [returnF_noLS rest f1 (by simpa using h1)
      (fun x hx => h4 x (List.mem_cons_of_mem c hx))]

lemma semiF_id : ∀ (cs : Str) (f : Nat), cs.length ≤ f → ';' ∉ cs →
    semiF f cs = cs := by
  intro cs
  induction cs with
  | nil => intro f h1 h2; cases f <;> rfl
  | cons c rest ih =>
    intro f h1 h2
    cases f with
    | zero => simp at h1
    | succ f1 =>
      have hne : c ≠ ';' := fun e => h2 (by rw [e]; exact List.mem_cons_self _ _)
      have hc : (c == ';') = false := by simpa using hne
      simp only [semiF, hc, Bool.false_eq_true, if_false]
      rw [ih f1 (by simpa using h1) (fun hm => h2 (List.mem_cons_of_mem c hm))]

/-- The terminator strip removes exactly a final semicolon. -/
lemma semiF_strip_final : ∀ (X : Str) (f : Nat), (X ++ [';']).length ≤ f →
    ';' ∉ X → semiF f (X ++ [';']) = X := by
  intro X
  induction X with
  | nil =>
    intro f h1 h2
    cases f with
    | zero => simp at h1
    | succ f1 => simp [semiF, List.takeWhile, List.dropWhile]
  | cons c X ih =>
    intro f h1 h2
    cases f with
    | zero => simp at h1
    | succ f1 =>
      have hne : c ≠ ';' := fun e => h2 (by rw [e]; exact List.mem_cons_self _ _)
      have hc : (c == ';') = false := by simpa using hne
      rw [List.cons_append]
      simp only [semiF, hc, Bool.false_eq_true, if_false]
      rw [ih f1 (by simpa using h1) (fun hm => h2 (List.mem_cons_of_mem c hm))]

lemma dropWhile_id_of_head (l : Str) (h : isJsWs (l.headD 'x') = false) :
    l.dropWhile isJsWs = l := by
  cases l with
  | nil => rfl
  | cons c rest => simp only [List.headD_cons] at h; simp [List.dropWhile_cons, h]

lemma jsTrim_id (cs : Str) (h1 : isJsWs (cs.headD 'x') = false)
    (h2 : isJsWs (cs.getLastD 'x') = false) : jsTrim cs = cs := by
  unfold jsTrim
  rw [show cs.dropWhile isJsWs = cs from dropWhile_id_of_head cs h1]
  have e1 : cs.reverse.headD 'x' = cs.getLastD 'x' := by
    rw [List.headD_eq_head?, List.head?_reverse, List.getLastD_eq_getLast?]
  rw [dropWhile_id_of_head cs.reverse (by rw [e1]; exact h2), List.reverse_reverse]

@[simp] lemma stripLBr_lb (X : Str) : stripLBr ('[' :: X) = X := by simp [stripLBr]

@[simp] lemma stripRBr_rb (X : Str) : stripRBr (X ++ [']']) = X := by
  simp [stripRBr, List.getLast?_concat, List.dropLast_concat]

/-- One open-tag gulp at the start of a file whose seventh character is not
whitespace. -/
lemma phpOpenF_tag_step (f : Nat) (c : Char) (T : Str) (hc : isJsWs c = false) :
    phpOpenF (f + 1) ('<' :: '?' :: 'p' :: 'h' :: 'p' :: ' ' ::c::T) true = phpOpenF f (c :: T) false := by
  have e1 : ('?' :: 'p' :: 'h' :: 'p' :: ' ' ::c::T).take 4 = ['?', 'p', 'h', 'p'] := rfl
  have e2 : ('?' :: 'p' :: 'h' :: 'p' :: ' ' ::c::T).drop 4 = ' ' ::c::T := rfl
  have e3 : (' ' ::c::T).takeWhile isJsWs = [' '] := by
    simp [List.takeWhile_cons, hc]
  have e4 : (' ' ::c::T).dropWhile isJsWs = c :: T := by
    simp [List.dropWhile_cons, hc]
  simp [phpOpenF, e1, e2, e3, e4, (by decide : isNL ' ' = false)]

/-- One return gulp at a line start whose eighth character is not
whitespace. -/
lemma returnF_return_step (f : Nat) (c : Char) (T : Str) (hc : isJsWs c = false) :
    returnF (f + 1) ('r' :: 'e' :: 't' :: 'u' :: 'r' :: 'n' :: ' ' ::c::T) true = returnF f (c :: T) false := by
  have e1 : ('r' :: 'e' :: 't' :: 'u' :: 'r' :: 'n' :: ' ' ::c::T).dropWhile isJsWs =
      'r' :: 'e' :: 't' :: 'u' :: 'r' :: 'n' :: ' ' ::c::T := by
    simp [List.dropWhile_cons, (by decide : isJsWs 'r' = false)]
  have e2 : ('r' :: 'e' :: 't' :: 'u' :: 'r' :: 'n' :: ' ' ::c::T).take 6 = ['r', 'e', 't', 'u', 'r', 'n'] := rfl
  have e3 : ('r' :: 'e' :: 't' :: 'u' :: 'r' :: 'n' :: ' ' ::c::T).drop 6 = ' ' ::c::T := rfl
  have e4 : (' ' ::c::T).takeWhile isJsWs = [' '] := by
    simp [List.takeWhile_cons, hc]
  have e5 : (' ' ::c::T).dropWhile isJsWs = c :: T := by
    simp [List.dropWhile_cons, hc]
  simp [returnF, e1, e2, e3, e4, e5, (by decide : isNL ' ' = false)]

/-- Cleaning a whole translation file built around a body leaves exactly the
body: the open tag, the return keyword, the outer brackets and the final
terminator are stripped. -/
lemma clean_phpFile (body : Str) (hNL : ∀ c ∈ body, isNL c = false)
    (hLt : '<' ∉ body) (hQm : '?' ∉ body) (hSemi : ';' ∉ body) :
    cleanContent (phpFile body) = body := by
  have hmem : ∀ x, x ∈ ('r' :: 'e' :: 't' :: 'u' :: 'r' :: 'n' :: ' ' :: '[' ::(body ++ [']', ';'])) →
      x = 'r' ∨ x = 'e' ∨ x = 't' ∨ x = 'u' ∨ x = 'n' ∨ x = ' ' ∨ x = '[' ∨
      x = ']' ∨ x = ';' ∨ x ∈ body := by
    intro x hx
    simp only [List.mem_cons, List.mem_append, List.mem_singleton] at hx
    tauto
  have e0 : phpFile body =
      '<' :: '?' :: 'p' :: 'h' :: 'p' :: ' ' ::('r' :: 'e' :: 't' :: 'u' :: 'r' :: 'n' :: ' ' :: '[' ::(body ++ [']', ';'])) := by
    simp [phpFile, phpHeader]
  have hlen : (phpFile body).length = body.length + 16 := by
    rw [e0]; simp
  have hT1len : ('r' :: 'e' :: 't' :: 'u' :: 'r' :: 'n' :: ' ' :: '[' ::(body ++ [']', ';'])).length =
      body.length + 10 := by simp
  have A1 : phpOpenF (phpFile body).length (phpFile body) true =
      'r' :: 'e' :: 't' :: 'u' :: 'r' :: 'n' :: ' ' :: '[' ::(body ++ [']', ';']) := by
    rw [hlen, e0]
    rw [show body.length + 16 = (body.length + 15) + 1 from rfl]
    rw [phpOpenF_tag_step _ _ _ (by decide)]
    apply phpOpenF_id _ _ _ (by rw [hT1len]; omega)
    intro hm
    rcases hmem _ hm with h|h|h|h|h|h|h|h|h|h
    all_goals first
      | exact absurd h (by decide)
      | exact hLt h
  have A2 : closeTag ('r' :: 'e' :: 't' :: 'u' :: 'r' :: 'n' :: ' ' :: '[' ::(body ++ [']', ';'])) =
      'r' :: 'e' :: 't' :: 'u' :: 'r' :: 'n' :: ' ' :: '[' ::(body ++ [']', ';']) := by
    apply closeTag_id
    intro hm
    rcases hmem _ hm with h|h|h|h|h|h|h|h|h|h
    all_goals first
      | exact absurd h (by decide)
      | exact hQm h
  have A3 : returnF ('r' :: 'e' :: 't' :: 'u' :: 'r' :: 'n' :: ' ' :: '[' ::(body ++ [']', ';'])).length
      ('r' :: 'e' :: 't' :: 'u' :: 'r' :: 'n' :: ' ' :: '[' ::(body ++ [']', ';'])) true =
      '[' ::(body ++ [']', ';']) := by
    rw [hT1len]
    rw [show body.length + 10 = (body.length + 9) + 1 from rfl]
    rw [returnF_return_step _ _ _ (by decide)]
    apply returnF_noLS _ _ (by simp)
    intro x hx
    have hx2 : x = '[' ∨ x = ']' ∨ x = ';' ∨ x ∈ body := by
      simp only [List.mem_cons, List.mem_append, List.mem_singleton,
        List.not_mem_nil, or_false] at hx
      tauto
    rcases hx2 with h|h|h|h
    · subst h; decide
    · subst h; decide
    · subst h; decide
    · exact hNL x h
  have A4 : semiF ('[' ::(body ++ [']', ';'])).length ('[' ::(body ++ [']', ';'])) =
      '[' ::(body ++ [']']) := by
    rw [show ('[' ::(body ++ [']', ';'])) = ('[' ::(body ++ [']'])) ++ [';'] by simp]
    apply semiF_strip_final _ _ le_rfl
    intro hm
    have hm2 : ';' = '[' ∨ ';' = ']' ∨ ';' ∈ body := by
      simp only [List.mem_cons, List.mem_append, List.mem_singleton,
        List.not_mem_nil, or_false] at hm
      tauto
    rcases hm2 with h|h|h
    · exact absurd h (by decide)
    · exact absurd h (by decide)
    · exact hSemi h
  have A5 : jsTrim ('[' ::(body ++ [']'])) = '[' ::(body ++ [']']) := by
    apply jsTrim_id _ (by simp)
    rw [show ('[' ::(body ++ [']'])) = ('[' ::body) ++ [']'] by simp]
    rw [List.getLastD_concat]
    decide
  simp only [cleanContent]
  rw [A1, A2, A3, A4, A5, stripLBr_lb]
  exact stripRBr_rb body

/-- Cleaning a re-bracketed nested body leaves exactly the body. -/
lemma clean_brackets (inner : Str) (hNL : ∀ c ∈ inner, isNL c = false)
    (hLt : '<' ∉ inner) (hQm : '?' ∉ inner) (hSemi : ';' ∉ inner) :
    cleanContent ('[' :: inner ++ [']']) = inner := by
  have hmem : ∀ x, x ∈ ('[' ::(inner ++ [']'])) → x = '[' ∨ x = ']' ∨ x ∈ inner := by
    intro x hx
    simp only [List.mem_cons, List.mem_append, List.mem_singleton] at hx
    tauto
  have A1 : phpOpenF ('[' ::(inner ++ [']'])).length ('[' ::(inner ++ [']'])) true =
      '[' ::(inner ++ [']']) := by
    apply phpOpenF_id _ _ _ le_rfl
    intro hm
    rcases hmem _ hm with h|h|h
    · exact absurd h (by decide)
    · exact absurd h (by decide)
    · exact hLt h
  have A2 : closeTag ('[' ::(inner ++ [']'])) = '[' ::(inner ++ [']']) := by
    apply closeTag_id
    intro hm
    rcases hmem _ hm with h|h|h
    · exact absurd h (by decide)
    · exact absurd h (by decide)
    · exact hQm h
  have A3 : returnF ('[' ::(inner ++ [']'])).length ('[' ::(inner ++ [']'])) true =
      '[' ::(inner ++ [']']) := by
    apply returnF_LS_nonmatch _ _ _ le_rfl (by decide) (by decide)
    intro x hx
    rcases hmem _ hx with h|h|h
    · subst h; decide
    · subst h; decide
    · exact hNL x h
  have A4 : semiF ('[' ::(inner ++ [']'])).length ('[' ::(inner ++ [']'])) =
      '[' ::(inner ++ [']']) := by
    apply semiF_id _ _ le_rfl
    intro hm
    rcases hmem _ hm with h|h|h
    · exact absurd h (by decide)
    · exact absurd h (by decide)
    · exact hSemi h
  have A5 : jsTrim ('[' ::(inner ++ [']'])) = '[' ::(inner ++ [']']) := by
    apply jsTrim_id _ (by simp)
    rw [show ('[' ::(inner ++ [']'])) = ('[' ::inner) ++ [']'] by simp]
    rw [List.getLastD_concat]
    decide
  have e : ('[' :: inner ++ [']']) = '[' ::(inner ++ [']']) := rfl
  rw [e]
  simp only [cleanContent]
  rw [A1, A2, A3, A4, A5, stripLBr_lb]
  exact stripRBr_rb inner

/-! ## Template facts -/

lemma pairB_mem {y : Char} (k v : Str) (h : y ∈ pairB k v) :
    y = qS ∨ y = ' ' ∨ y = '=' ∨ y = '>' ∨ y ∈ k ∨ y ∈ v := by
  simp only [pairB, sq, gArr, List.mem_append, List.mem_cons,
    List.not_mem_nil, or_false] at h
  tauto

lemma nestB_mem {y : Char} (a b v : Str) (h : y ∈ nestB a b v) :
    y = qS ∨ y = ' ' ∨ y = '=' ∨ y = '>' ∨ y = '[' ∨ y = ']' ∨ y ∈ a ∨ y ∈ pairB b v := by
  simp only [nestB, sq, gArr, List.mem_append, List.mem_cons,
    List.not_mem_nil, or_false] at h
  tauto

lemma dupB_mem {y : Char} (x f b w : Str) (h : y ∈ dupB x f b w) :
    y = ',' ∨ y = ' ' ∨ y ∈ pairB x f ∨ y ∈ nestB x b w := by
  simp only [dupB, List.mem_append, List.mem_cons] at h
  tauto

/-- From a character decomposition of a body, the facts needed by the
cleaning lemma. -/
lemma body_clean_facts (body : Str)
    (hdec : ∀ x ∈ body, x = qS ∨ x = ' ' ∨ x = '=' ∨ x = '>' ∨ x = '[' ∨
      x = ']' ∨ x = ',' ∨ vSafe x = true) :
    (∀ c ∈ body, isNL c = false) ∧ '<' ∉ body ∧ '?' ∉ body ∧ ';' ∉ body := by
  refine ⟨?_, ?_, ?_, ?_⟩
  · intro c hc
    rcases hdec c hc with h|h|h|h|h|h|h|h
    · subst h; decide
    · subst h; decide
    · subst h; decide
    · subst h; decide
    · subst h; decide
    · subst h; decide
    · subst h; decide
    · exact (vSafe_facts h).2.2.2.2.2.2.2.2.2.2.2.1
  · intro hm
    rcases hdec '<' hm with h|h|h|h|h|h|h|h
    all_goals first
      | exact absurd h (by decide)
      | exact (vSafe_facts h).2.2.2.2.2.2.1 rfl
  · intro hm
    rcases hdec '?' hm with h|h|h|h|h|h|h|h
    all_goals first
      | exact absurd h (by decide)
      | exact (vSafe_facts h).2.2.2.2.2.2.2.2.2.2.1 rfl
  · intro hm
    rcases hdec ';' hm with h|h|h|h|h|h|h|h
    all_goals first
      | exact absurd h (by decide)
      | exact (vSafe_facts h).2.2.2.2.2.2.2.2.2.1 rfl

lemma vlist_of_klist {k : Str} (hk : ∀ c ∈ k, kSafe c = true) :
    ∀ c ∈ k, vSafe c = true :=
  fun c hc => (kSafe_facts (hk c hc)).1

lemma safe_pairs {l : Str} (hl : ∀ c ∈ l, vSafe c = true) :
    ∀ c ∈ l, c ≠ qS ∧ c ≠ bsl :=
  fun c hc => ⟨(vSafe_facts (hl c hc)).1, (vSafe_facts (hl c hc)).2.2.2.1⟩

lemma noquote_list {l : Str} (hl : ∀ c ∈ l, vSafe c = true) :
    ∀ c ∈ l, isQuote c = false :=
  fun c hc => (vSafe_facts (hl c hc)).2.2.2.2.2.2.2.2.2.2.2.2

lemma no_lb_list {l : Str} (hl : ∀ c ∈ l, vSafe c = true) : '[' ∉ l :=
  fun hm => (vSafe_facts (hl '[' hm)).2.2.2.2.1 rfl

lemma no_rb_list {l : Str} (hl : ∀ c ∈ l, vSafe c = true) : ']' ∉ l :=
  fun hm => (vSafe_facts (hl ']' hm)).2.2.2.2.2.1 rfl

/-- The appended normal form of a flat pair. -/
lemma pairB_eq (k v rest : Str) :
    pairB k v ++ rest = qS :: (k ++ qS :: (gArr ++ qS :: (v ++ qS :: rest))) := by
  simp [pairB, sq, gArr]

lemma nestB_eq (a b v rest : Str) :
    nestB a b v ++ rest = qS :: (a ++ qS :: (gArr ++ '[' :: (pairB b v ++ ']' :: rest))) := by
  simp [nestB, sq, gArr, pairB]

/-! ## Scan results on the templates -/

lemma flatScan_pairB_start (k v rest : Str) (hk : ∀ c ∈ k, vSafe c = true)
    (hv : ∀ c ∈ v, vSafe c = true) :
    flatScan (pairB k v ++ rest) = (k, v) :: flatScan rest := by
  rw [pairB_eq]
  have h := flatScan_cons_some (tryFlatAt_pair k v rest (safe_pairs hk) (safe_pairs hv))
  simpa using h

lemma flatScan_pairB (k v : Str) (hk : ∀ c ∈ k, vSafe c = true)
    (hv : ∀ c ∈ v, vSafe c = true) :
    flatScan (pairB k v) = [(k, v)] := by
  have h := flatScan_pairB_start k v [] hk hv
  rw [List.append_nil] at h
  rw [h, flatScan_nil]

lemma nestedScan_pairB (k v : Str) (hk : ∀ c ∈ k, vSafe c = true)
    (hv : ∀ c ∈ v, vSafe c = true) :
    nestedScan (pairB k v) = [] := by
  apply nestedScan_no_lb
  intro hm
  rcases pairB_mem k v hm with h|h|h|h|h|h
  · exact absurd h (by decide)
  · exact absurd h (by decide)
  · exact absurd h (by decide)
  · exact absurd h (by decide)
  · exact no_lb_list hk h
  · exact no_lb_list hv h

lemma rb_not_mem_pairB (k v : Str) (hk : ∀ c ∈ k, vSafe c = true)
    (hv : ∀ c ∈ v, vSafe c = true) : ']' ∉ pairB k v := by
  intro hm
  rcases pairB_mem k v hm with h|h|h|h|h|h
  · exact absurd h (by decide)
  · exact absurd h (by decide)
  · exact absurd h (by decide)
  · exact absurd h (by decide)
  · exact no_rb_list hk h
  · exact no_rb_list hv h

lemma flatScan_nestB (a b v : Str) (ha : ∀ c ∈ a, vSafe c = true)
    (hb : ∀ c ∈ b, vSafe c = true) (hv : ∀ c ∈ v, vSafe c = true) :
    flatScan (nestB a b v) = [(b, v)] := by
  have inner3 : flatScan (']' :: ([] : Str)) = [] := by
    rw [flatScan_cons_none (tryFlatAt_nonquote _ (by decide))]
    rfl
  have inner2 : flatScan (pairB b v ++ (']' :: [])) = [(b, v)] := by
    rw [flatScan_pairB_start b v _ hb hv, inner3]
  have inner1 : flatScan (qS :: (gArr ++ '[' :: (pairB b v ++ ']' :: []))) = [(b, v)] := by
    have e1 : gArr ++ '[' :: (pairB b v ++ ']' :: []) =
        (gArr ++ ['[']) ++ (qS :: (b ++ qS :: (gArr ++ qS :: (v ++ qS :: (']' :: []))))) := by
      rw [pairB_eq]
      simp
    rw [e1]
    rw [flatScan_cons_none
      (tryFlatAt_junkquote _ _ (by decide) (matchArrow_junk b _ hb))]
    rw [flatScan_append_nq _ _ (by decide)]
    rw [← pairB_eq]
    exact inner2
  rw [show nestB a b v = nestB a b v ++ [] by simp, nestB_eq]
  rw [flatScan_cons_none (tryFlatAt_nestshape a _ (safe_pairs ha))]
  rw [flatScan_append_nq a _ (noquote_list ha)]
  exact inner1

lemma nestedScan_nestB (a b v : Str) (ha : ∀ c ∈ a, vSafe c = true)
    (hb : ∀ c ∈ b, vSafe c = true) (hv : ∀ c ∈ v, vSafe c = true) :
    nestedScan (nestB a b v) = [(a, pairB b v)] := by
  rw [show nestB a b v = nestB a b v ++ [] by simp, nestB_eq]
  have h := nestedScan_cons_some
    (tryNestedAt_nest a (pairB b v) [] (safe_pairs ha) (rb_not_mem_pairB b v hb hv))
  simpa using h

lemma flatScan_dupB (x f b w : Str) (hx : ∀ c ∈ x, vSafe c = true)
    (hf : ∀ c ∈ f, vSafe c = true) (hb : ∀ c ∈ b, vSafe c = true)
    (hw : ∀ c ∈ w, vSafe c = true) :
    flatScan (dupB x f b w) = [(x, f), (b, w)] := by
  unfold dupB
  rw [flatScan_pairB_start x f _ hx hf]
  rw [show (',' :: ' ' :: nestB x b w) = ([',', ' '] : Str) ++ nestB x b w from rfl]
  rw [flatScan_append_nq _ _ (by decide)]
  rw [flatScan_nestB x b w hx hb hw]

lemma nestedScan_dupB (x f b w : Str) (hx : ∀ c ∈ x, vSafe c = true)
    (hf : ∀ c ∈ f, vSafe c = true) (hb : ∀ c ∈ b, vSafe c = true)
    (hw : ∀ c ∈ w, vSafe c = true) :
    nestedScan (dupB x f b w) = [(x, pairB b w)] := by
  have step3 : nestedScan (qS :: (',' :: ' ' :: nestB x b w)) = [(x, pairB b w)] := by
    have e1 : (',' :: ' ' :: nestB x b w) =
        ([',', ' '] : Str) ++ (qS :: (x ++ qS :: (gArr ++ '[' :: (pairB b w ++ ']' :: [])))) := by
      rw [← nestB_eq, List.append_nil]
      rfl
    rw [e1]
    rw [nestedScan_cons_none
      (tryNestedAt_junkquote _ _ (by decide) (matchArrow_junk x _ hx))]
    rw [nestedScan_append_nq _ _ (by decide)]
    rw [← nestB_eq, List.append_nil]
    exact nestedScan_nestB x b w hx hb hw
  have step2 : nestedScan (qS :: (f ++ qS :: (',' :: ' ' :: nestB x b w))) = [(x, pairB b w)] := by
    rw [nestedScan_cons_none
      (tryNestedAt_junkquote _ _ (safe_pairs hf)
        (matchArrow_cons_ne _ (by decide) (by decide)))]
    rw [nestedScan_append_nq f _ (noquote_list hf)]
    exact step3
  have step1 : nestedScan (qS :: (gArr ++ qS :: (f ++ qS :: (',' :: ' ' :: nestB x b w)))) =
      [(x, pairB b w)] := by
    rw [nestedScan_cons_none
      (tryNestedAt_junkquote _ _ (by decide) (matchArrow_junk f _ hf))]
    rw [nestedScan_append_nq _ _ (by decide)]
    exact step2
  unfold dupB
  rw [pairB_eq]
  rw [nestedScan_cons_none (tryNestedAt_flatshape x _ (safe_pairs hx))]
  rw [nestedScan_append_nq x _ (noquote_list hx)]
  exact step1

/-! ## Parse results on the templates -/

lemma parsePhpArrayF_succ (f : Nat) (content : Str) :
    parsePhpArrayF (f + 1) content =
      PT.map ((flatScan (cleanContent content)).map (fun p => (p.1, PT.leaf p.2)) ++
        (nestedScan (cleanContent content)).map
          (fun p => (p.1, parsePhpArrayF f ('[' :: p.2 ++ [']'])))) := rfl

lemma parsePhpArrayF_noNested (s : Str) (f : Nat)
    (h : nestedScan (cleanContent s) = []) :
    parsePhpArrayF (f + 1) s =
      PT.map ((flatScan (cleanContent s)).map (fun p => (p.1, PT.leaf p.2))) := by
  simp [parsePhpArrayF, h]

lemma pairB_clean_facts (k v : Str) (hk : ∀ c ∈ k, vSafe c = true)
    (hv : ∀ c ∈ v, vSafe c = true) :
    (∀ c ∈ pairB k v, isNL c = false) ∧ '<' ∉ pairB k v ∧ '?' ∉ pairB k v ∧
      ';' ∉ pairB k v := by
  apply body_clean_facts
  intro y hy
  rcases pairB_mem k v hy with h|h|h|h|h|h
  · tauto
  · tauto
  · tauto
  · tauto
  · right; right; right; right; right; right; right; exact hk y h
  · right; right; right; right; right; right; right; exact hv y h

lemma nestB_clean_facts (a b v : Str) (ha : ∀ c ∈ a, vSafe c = true)
    (hb : ∀ c ∈ b, vSafe c = true) (hv : ∀ c ∈ v, vSafe c = true) :
    (∀ c ∈ nestB a b v, isNL c = false) ∧ '<' ∉ nestB a b v ∧ '?' ∉ nestB a b v ∧
      ';' ∉ nestB a b v := by
  apply body_clean_facts
  intro y hy
  rcases nestB_mem a b v hy with h|h|h|h|h|h|h|h
  · tauto
  · tauto
  · tauto
  · tauto
  · tauto
  · tauto
  · right; right; right; right; right; right; right; exact ha y h
  · rcases pairB_mem b v h with h2|h2|h2|h2|h2|h2
    · tauto
    · tauto
    · tauto
    · tauto
    · right; right; right; right; right; right; right; exact hb y h2
    · right; right; right; right; right; right; right; exact hv y h2

lemma dupB_clean_facts (x f b w : Str) (hx : ∀ c ∈ x, vSafe c = true)
    (hf : ∀ c ∈ f, vSafe c = true) (hb : ∀ c ∈ b, vSafe c = true)
    (hw : ∀ c ∈ w, vSafe c = true) :
    (∀ c ∈ dupB x f b w, isNL c = false) ∧ '<' ∉ dupB x f b w ∧ '?' ∉ dupB x f b w ∧
      ';' ∉ dupB x f b w := by
  apply body_clean_facts
  intro y hy
  rcases dupB_mem x f b w hy with h|h|h|h
  · tauto
  · tauto
  · rcases pairB_mem x f h with h2|h2|h2|h2|h2|h2
    · tauto
    · tauto
    · tauto
    · tauto
    · right; right; right; right; right; right; right; exact hx y h2
    · right; right; right; right; right; right; right; exact hf y h2
  · rcases nestB_mem x b w h with h2|h2|h2|h2|h2|h2|h2|h2
    · tauto
    · tauto
    · tauto
    · tauto
    · tauto
    · tauto
    · right; right; right; right; right; right; right; exact hx y h2
    · rcases pairB_mem b w h2 with h3|h3|h3|h3|h3|h3
      · tauto
      · tauto
      · tauto
      · tauto
      · right; right; right; right; right; right; right; exact hb y h3
      · right; right; right; right; right; right; right; exact hw y h3

/-- The parse of a file around a single flat pair. -/
lemma root_pairB (k v : Str) (hk : ∀ c ∈ k, vSafe c = true)
    (hv : ∀ c ∈ v, vSafe c = true) :
    parsePhpArray (phpFile (pairB k v)) = PT.map [(k, PT.leaf v)] := by
  obtain ⟨c1, c2, c3, c4⟩ := pairB_clean_facts k v hk hv
  have hclean : cleanContent (phpFile (pairB k v)) = pairB k v :=
    clean_phpFile _ c1 c2 c3 c4
  show parsePhpArrayF ((phpFile (pairB k v)).length + 1) (phpFile (pairB k v)) = _
  rw [parsePhpArrayF_noNested _ _ (by rw [hclean]; exact nestedScan_pairB k v hk hv)]
  rw [hclean, flatScan_pairB k v hk hv]
  rfl

/-- The parse of a file around one nested pair: the inner pair leaks to the
top level through the flat pass, and the key of the nested pair maps to the
recursively parsed inner mapping. -/
lemma root_nestB (a b v : Str) (ha : ∀ c ∈ a, vSafe c = true)
    (hb : ∀ c ∈ b, vSafe c = true) (hv : ∀ c ∈ v, vSafe c = true) :
    parsePhpArray (phpFile (nestB a b v)) =
      PT.map [(b, PT.leaf v), (a, PT.map [(b, PT.leaf v)])] := by
  obtain ⟨c1, c2, c3, c4⟩ := nestB_clean_facts a b v ha hb hv
  obtain ⟨p1, p2, p3, p4⟩ := pairB_clean_facts b v hb hv
  have hclean : cleanContent (phpFile (nestB a b v)) = nestB a b v :=
    clean_phpFile _ c1 c2 c3 c4
  have hlen : (phpFile (nestB a b v)).length = (phpFile (nestB a b v)).length - 1 + 1 := by
    have : 0 < (phpFile (nestB a b v)).length := by simp [phpFile, phpHeader]
    omega
  have hinner : parsePhpArrayF ((phpFile (nestB a b v)).length)
      ('[' :: pairB b v ++ [']']) = PT.map [(b, PT.leaf v)] := by
    rw [hlen]
    rw [parsePhpArrayF_noNested _ _
      (by rw [clean_brackets _ p1 p2 p3 p4]; exact nestedScan_pairB b v hb hv)]
    rw [clean_brackets _ p1 p2 p3 p4, flatScan_pairB b v hb hv]
    rfl
  show parsePhpArrayF ((phpFile (nestB a b v)).length + 1) (phpFile (nestB a b v)) = _
  rw [parsePhpArrayF_succ]
  rw [hclean, flatScan_nestB a b v ha hb hv, nestedScan_nestB a b v ha hb hv]
  simp only [List.map_cons, List.map_nil, hinner]
  rfl

/-- The parse of a file around the duplicate-key body: the flat entry for
the key precedes the nested entry, which therefore wins the lookup. -/
lemma root_dupB (x f b w : Str) (hx : ∀ c ∈ x, vSafe c = true)
    (hf : ∀ c ∈ f, vSafe c = true) (hb : ∀ c ∈ b, vSafe c = true)
    (hw : ∀ c ∈ w, vSafe c = true) :
    parsePhpArray (phpFile (dupB x f b w)) =
      PT.map [(x, PT.leaf f), (b, PT.leaf w), (x, PT.map [(b, PT.leaf w)])] := by
  obtain ⟨c1, c2, c3, c4⟩ := dupB_clean_facts x f b w hx hf hb hw
  obtain ⟨p1, p2, p3, p4⟩ := pairB_clean_facts b w hb hw
  have hclean : cleanContent (phpFile (dupB x f b w)) = dupB x f b w :=
    clean_phpFile _ c1 c2 c3 c4
  have hlen : (phpFile (dupB x f b w)).length = (phpFile (dupB x f b w)).length - 1 + 1 := by
    have : 0 < (phpFile (dupB x f b w)).length := by simp [phpFile, phpHeader]
    omega
  have hinner : parsePhpArrayF ((phpFile (dupB x f b w)).length)
      ('[' :: pairB b w ++ [']']) = PT.map [(b, PT.leaf w)] := by
    rw [hlen]
    rw [parsePhpArrayF_noNested _ _
      (by rw [clean_brackets _ p1 p2 p3 p4]; exact nestedScan_pairB b w hb hw)]
    rw [clean_brackets _ p1 p2 p3 p4, flatScan_pairB b w hb hw]
    rfl
  show parsePhpArrayF ((phpFile (dupB x f b w)).length + 1) (phpFile (dupB x f b w)) = _
  rw [parsePhpArrayF_succ]
  rw [hclean, flatScan_dupB x f b w hx hf hb hw, nestedScan_dupB x f b w hx hf hb hw]
  simp only [List.map_cons, List.map_nil, hinner]
  rfl

/-! ## Path and walk lemmas -/

lemma splitOnDot_no_dot (a : Str) (h : '.' ∉ a) : splitOnDot a = [a] := by
  induction a with
  | nil => rfl
  | cons c rest ih =>
    have hc : (c == '.') = false := by
      simpa using fun e => h (by rw [e]; exact List.mem_cons_self _ _)
    simp only [splitOnDot, hc, Bool.false_eq_true, if_false]
    rw [ih (fun hm => h (List.mem_cons_of_mem c hm))]

lemma splitOnDot_append_dot (a b : Str) (h : '.' ∉ a) :
    splitOnDot (a ++ '.' :: b) = a :: splitOnDot b := by
  induction a with
  | nil => simp [splitOnDot]
  | cons c rest ih =>
    have hc : (c == '.') = false := by
      simpa using fun e => h (by rw [e]; exact List.mem_cons_self _ _)
    rw [List.cons_append]
    simp only [splitOnDot, hc, Bool.false_eq_true, if_false]
    rw [ih (fun hm => h (List.mem_cons_of_mem c hm))]

lemma splitOnDot_ne_nil (a : Str) : splitOnDot a ≠ [] := by
  cases a with
  | nil => simp [splitOnDot]
  | cons c rest =>
    simp only [splitOnDot]
    split
    · simp
    · cases h2 : splitOnDot rest <;> simp

lemma dotfree_of_klist {k : Str} (hk : ∀ c ∈ k, kSafe c = true) : '.' ∉ k :=
  fun hm => (kSafe_facts (hk '.' hm)).2 rfl

/-- A terminal leaf reached by the raw walk is what getNestedValue returns. -/
lemma walkPath_of_nodeAt_leaf : ∀ (ks : List Str) (obj : PT) (v : Str),
    nodeAt ks obj = some (PT.leaf v) → walkPath ks obj = some v := by
  intro ks
  induction ks with
  | nil =>
    intro obj v h
    simp only [nodeAt] at h
    cases h
    rfl
  | cons k ks ih =>
    intro obj v h
    cases obj with
    | leaf s => exact Option.noConfusion h
    | map es =>
      simp only [nodeAt] at h
      simp only [walkPath]
      cases hl : jsLookup es k with
      | none => rw [hl] at h; exact Option.noConfusion h
      | some t =>
        rw [hl] at h
        exact ih t v h

/-- A terminal mapping reached by the raw walk makes getNestedValue return
none. -/
lemma walkPath_of_nodeAt_map : ∀ (ks : List Str) (obj : PT) (es : List (Str × PT)),
    nodeAt ks obj = some (PT.map es) → walkPath ks obj = none := by
  intro ks
  induction ks with
  | nil =>
    intro obj es h
    simp only [nodeAt] at h
    cases h
    rfl
  | cons k ks ih =>
    intro obj es h
    cases obj with
    | leaf s => exact Option.noConfusion h
    | map es2 =>
      simp only [nodeAt] at h
      simp only [walkPath]
      cases hl : jsLookup es2 k with
      | none =>
        first
        | rfl
        | (rw [hl] at h; exact Option.noConfusion h)
        | exact Option.noConfusion h
      | some t =>
        first
        | (rw [hl] at h; exact ih t es h)
        | exact ih t es h

/-! ## Many-pair literal lemmas -/

lemma listBody_mem {y : Char} : ∀ (ps : List (Str × Str)), y ∈ listBody ps →
    y = ',' ∨ y = ' ' ∨ ∃ p ∈ ps, y ∈ pairB p.1 p.2 := by
  intro ps
  induction ps with
  | nil => intro h; simp [listBody] at h
  | cons p rest ih =>
    intro h
    simp only [listBody, List.mem_append, List.mem_cons] at h
    rcases h with h | h | h | h
    · exact Or.inr (Or.inr ⟨p, List.mem_cons_self _ _, h⟩)
    · tauto
    · tauto
    · rcases ih h with h2 | h2 | ⟨q, hq, hy⟩
      · tauto
      · tauto
      · exact Or.inr (Or.inr ⟨q, List.mem_cons_of_mem p hq, hy⟩)

lemma flatScan_listBody : ∀ (ps : List (Str × Str)),
    (∀ p ∈ ps, (∀ c ∈ p.1, vSafe c = true) ∧ (∀ c ∈ p.2, vSafe c = true)) →
    flatScan (listBody ps) = ps := by
  intro ps
  induction ps with
  | nil => simp [listBody]
  | cons p rest ih =>
    intro h
    obtain ⟨h1, h2⟩ := h p (List.mem_cons_self p rest)
    show flatScan (pairB p.1 p.2 ++ ',' :: ' ' :: listBody rest) = p :: rest
    rw [flatScan_pairB_start p.1 p.2 _ h1 h2]
    rw [show (',' :: ' ' :: listBody rest) = ([',', ' '] : Str) ++ listBody rest from rfl]
    rw [flatScan_append_nq _ _ (by decide)]
    rw [ih (fun q hq => h q (List.mem_cons_of_mem p hq))]

lemma nestedScan_listBody (ps : List (Str × Str))
    (h : ∀ p ∈ ps, (∀ c ∈ p.1, vSafe c = true) ∧ (∀ c ∈ p.2, vSafe c = true)) :
    nestedScan (listBody ps) = [] := by
  apply nestedScan_no_lb
  intro hm
  rcases listBody_mem ps hm with h2 | h2 | ⟨q, hq, hy⟩
  · exact absurd h2 (by decide)
  · exact absurd h2 (by decide)
  · obtain ⟨hk, hv⟩ := h q hq
    rcases pairB_mem q.1 q.2 hy with h3|h3|h3|h3|h3|h3
    · exact absurd h3 (by decide)
    · exact absurd h3 (by decide)
    · exact absurd h3 (by decide)
    · exact absurd h3 (by decide)
    · exact no_lb_list hk h3
    · exact no_lb_list hv h3

lemma listBody_clean_facts (ps : List (Str × Str))
    (h : ∀ p ∈ ps, (∀ c ∈ p.1, vSafe c = true) ∧ (∀ c ∈ p.2, vSafe c = true)) :
    (∀ c ∈ listBody ps, isNL c = false) ∧ '<' ∉ listBody ps ∧ '?' ∉ listBody ps ∧
      ';' ∉ listBody ps := by
  apply body_clean_facts
  intro y hy
  rcases listBody_mem ps hy with h2 | h2 | ⟨q, hq, hmem⟩
  · tauto
  · tauto
  · obtain ⟨hk, hv⟩ := h q hq
    rcases pairB_mem q.1 q.2 hmem with h3|h3|h3|h3|h3|h3
    · tauto
    · tauto
    · tauto
    · tauto
    · right; right; right; right; right; right; right; exact hk y h3
    · right; right; right; right; right; right; right; exact hv y h3

/-- The parse of a file around a comma separated list of flat pairs. -/
lemma root_listBody (ps : List (Str × Str))
    (h : ∀ p ∈ ps, (∀ c ∈ p.1, vSafe c = true) ∧ (∀ c ∈ p.2, vSafe c = true)) :
    parsePhpArray (phpFile (listBody ps)) =
      PT.map (ps.map (fun p => (p.1, PT.leaf p.2))) := by
  obtain ⟨c1, c2, c3, c4⟩ := listBody_clean_facts ps h
  have hclean : cleanContent (phpFile (listBody ps)) = listBody ps :=
    clean_phpFile _ c1 c2 c3 c4
  show parsePhpArrayF ((phpFile (listBody ps)).length + 1) (phpFile (listBody ps)) = _
  rw [parsePhpArrayF_noNested _ _ (by rw [hclean]; exact nestedScan_listBody ps h)]
  rw [hclean, flatScan_listBody ps h]

lemma jsLookup_map_leaf_none (ps : List (Str × Str)) (k : Str)
    (h : ∀ q ∈ ps, q.1 ≠ k) :
    jsLookup (ps.map (fun p => (p.1, PT.leaf p.2))) k = none := by
  induction ps with
  | nil => rfl
  | cons p rest ih =>
    simp only [List.map_cons, jsLookup]
    rw [ih (fun q hq => h q (List.mem_cons_of_mem p hq))]
    simp [h p (List.mem_cons_self p rest)]

/-- With pairwise distinct keys, the lookup of each listed key returns its
own leaf. -/
lemma jsLookup_map_leaf (ps : List (Str × Str)) (k v : Str)
    (hdist : ps.Pairwise (fun p q => p.1 ≠ q.1)) (hmem : (k, v) ∈ ps) :
    jsLookup (ps.map (fun p => (p.1, PT.leaf p.2))) k = some (PT.leaf v) := by
  induction ps with
  | nil => exact absurd hmem (List.not_mem_nil _)
  | cons p rest ih =>
    rw [List.pairwise_cons] at hdist
    rcases List.mem_cons.mp hmem with h | h
    · have hk : p.1 = k := by rw [← h]
      have hv : p.2 = v := by rw [← h]
      simp only [List.map_cons, jsLookup]
      rw [jsLookup_map_leaf_none rest k
        (fun q hq => by
          have h3 := hdist.1 q hq
          rw [hk] at h3
          exact Ne.symm h3)]
      simp [hk, hv]
    · simp only [List.map_cons, jsLookup]
      rw [ih hdist.2 h]

/-! ## Claims C1, C2, C3, C9, C5 -/

/-- C1 counterexample: in the flat pair whose key reads a backslash quote b
and whose value reads c backslash quote d, the parser stores the raw escaped
text; resolving the unescaped key yields nothing, refuting the claim that
escaped characters are unescaped correctly in the result. -/
theorem c1_escapes_not_unescaped :
    getNestedValue (parsePhpArray (phpFile (pairB (['a', bsl, qS, 'b']) (['c', bsl, qS, 'd']))))
        (['a', qS, 'b']) = none ∧
    getNestedValue (parsePhpArray (phpFile (pairB (['a', bsl, qS, 'b']) (['c', bsl, qS, 'd']))))
        (['a', qS, 'b']) ≠ some (['c', qS, 'd']) := by
  constructor
  · decide
  · decide

/-- C1 (amended): for every valid flat pair in a cleaned array literal of
distinct safe keys, parsing then resolving the key yields exactly the value;
backslash-escaped characters are kept verbatim, not unescaped, as the second
conjunct shows on the escaped pair whose raw key resolves to the raw
value. -/
theorem c1_flat_pair_roundtrip :
    (∀ (ps : List (Str × Str)) (k v : Str),
      (∀ p ∈ ps, (∀ c ∈ p.1, kSafe c = true) ∧ (∀ c ∈ p.2, vSafe c = true)) →
      ps.Pairwise (fun p q => p.1 ≠ q.1) →
      (k, v) ∈ ps →
      getNestedValue (parsePhpArray (phpFile (listBody ps))) k = some v) ∧
    getNestedValue (parsePhpArray (phpFile (pairB (['a', bsl, qS, 'b']) (['c', bsl, qS, 'd']))))
        (['a', bsl, qS, 'b']) = some (['c', bsl, qS, 'd']) := by
  constructor
  · intro ps k v hsafe hdist hmem
    have hsafe2 : ∀ p ∈ ps, (∀ c ∈ p.1, vSafe c = true) ∧ (∀ c ∈ p.2, vSafe c = true) :=
      fun p hp => ⟨vlist_of_klist (hsafe p hp).1, (hsafe p hp).2⟩
    rw [root_listBody ps hsafe2]
    unfold getNestedValue
    rw [splitOnDot_no_dot k (dotfree_of_klist (hsafe (k, v) hmem).1)]
    show walkPath [k] (PT.map (ps.map (fun p => (p.1, PT.leaf p.2)))) = some v
    simp only [walkPath, jsLookup_map_leaf ps k v hdist hmem]
  · decide

/-- C1 witness: a concrete flat pair resolves through the amended claim. -/
theorem c1_witness :
    getNestedValue (parsePhpArray (phpFile (listBody
      [((("auth").toList : Str), (("Login").toList : Str)),
       ((("title").toList : Str), (("Welcome").toList : Str))])))
      (("title").toList) = some (("Welcome").toList) :=
  c1_flat_pair_roundtrip.1
    [((("auth").toList : Str), (("Login").toList : Str)),
     ((("title").toList : Str), (("Welcome").toList : Str))]
    (("title").toList) (("Welcome").toList) (by decide) (by decide) (by decide)

/-- C2: for every nested literal around one inner pair, resolving the
two-segment dotted path yields the inner value, resolving the outer key
alone yields none; in general the resolver returns a terminal leaf and
returns none whenever the terminal node is a mapping. -/
theorem c2_nested_resolution :
    (∀ a b v : Str, (∀ c ∈ a, kSafe c = true) → (∀ c ∈ b, kSafe c = true) →
      (∀ c ∈ v, vSafe c = true) →
      getNestedValue (parsePhpArray (phpFile (nestB a b v))) (a ++ '.' :: b) = some v ∧
      getNestedValue (parsePhpArray (phpFile (nestB a b v))) a = none) ∧
    (∀ (obj : PT) (kp : Str) (es : List (Str × PT)),
      nodeAt (splitOnDot kp) obj = some (PT.map es) → getNestedValue obj kp = none) ∧
    (∀ (obj : PT) (kp : Str) (v : Str),
      nodeAt (splitOnDot kp) obj = some (PT.leaf v) → getNestedValue obj kp = some v) := by
  refine ⟨?_, ?_, ?_⟩
  · intro a b v ha hb hv
    rw [root_nestB a b v (vlist_of_klist ha) (vlist_of_klist hb) hv]
    constructor
    · unfold getNestedValue
      rw [splitOnDot_append_dot a b (dotfree_of_klist ha),
        splitOnDot_no_dot b (dotfree_of_klist hb)]
      simp [walkPath, jsLookup]
    · unfold getNestedValue
      rw [splitOnDot_no_dot a (dotfree_of_klist ha)]
      simp [walkPath, jsLookup]
  · intro obj kp es h
    exact walkPath_of_nodeAt_map _ obj es h
  · intro obj kp v h
    exact walkPath_of_nodeAt_leaf _ obj v h

/-- C2 witness: the concrete nested literal resolves through the claim. -/
theorem c2_witness :
    getNestedValue (parsePhpArray (phpFile (nestB (("greet").toList) (("title").toList)
      (("Hi").toList)))) (("greet.title").toList) = some (("Hi").toList) := by
  have h := (c2_nested_resolution.1 (("greet").toList) (("title").toList) (("Hi").toList)
    (by decide) (by decide) (by decide)).1
  have e : ((("greet").toList : Str) ++ '.' :: (("title").toList : Str)) =
      (("greet.title").toList : Str) := by decide
  rw [e] at h
  exact h

/-- C3: with a flat pair and a nested pair under the same key at the same
level, the final mapping sends the key to the parsed nested mapping and not
to the flat string: the dotted path through the nested mapping resolves, and
the key alone resolves to none rather than to the flat value. -/
theorem c3_nested_overwrites_flat :
    ∀ x f b w : Str, (∀ c ∈ x, kSafe c = true) → (∀ c ∈ f, vSafe c = true) →
      (∀ c ∈ b, kSafe c = true) → (∀ c ∈ w, vSafe c = true) →
      getNestedValue (parsePhpArray (phpFile (dupB x f b w))) (x ++ '.' :: b) = some w ∧
      getNestedValue (parsePhpArray (phpFile (dupB x f b w))) x = none := by
  intro x f b w hx hf hb hw
  rw [root_dupB x f b w (vlist_of_klist hx) hf (vlist_of_klist hb) hw]
  constructor
  · unfold getNestedValue
    rw [splitOnDot_append_dot x b (dotfree_of_klist hx),
      splitOnDot_no_dot b (dotfree_of_klist hb)]
    simp [walkPath, jsLookup]
  · unfold getNestedValue
    rw [splitOnDot_no_dot x (dotfree_of_klist hx)]
    simp [walkPath, jsLookup]

/-- C3 witness: the concrete duplicate-key literal resolves through the
nested mapping. -/
theorem c3_witness :
    getNestedValue (parsePhpArray (phpFile (dupB (("x").toList) (("flat").toList)
      (("b").toList) (("w").toList)))) (("x.b").toList) = some (("w").toList) := by
  have h := (c3_nested_overwrites_flat (("x").toList) (("flat").toList) (("b").toList)
    (("w").toList) (by decide) (by decide) (by decide) (by decide)).1
  have e : ((("x").toList : Str) ++ '.' :: (("b").toList : Str)) = (("x.b").toList : Str) := by
    decide
  rw [e] at h
  exact h

/-- C9: the flat pass scans the whole cleaned text, so the inner pair of a
nested literal also lands at the top level, and the single-segment inner key
resolves at the root (when it differs from the outer key, which the nested
pass overwrites). -/
theorem c9_inner_pair_leaks_to_top :
    ∀ a b v : Str, (∀ c ∈ a, kSafe c = true) → (∀ c ∈ b, kSafe c = true) →
      (∀ c ∈ v, vSafe c = true) → a ≠ b →
      getNestedValue (parsePhpArray (phpFile (nestB a b v))) b = some v := by
  intro a b v ha hb hv hab
  rw [root_nestB a b v (vlist_of_klist ha) (vlist_of_klist hb) hv]
  unfold getNestedValue
  rw [splitOnDot_no_dot b (dotfree_of_klist hb)]
  simp [walkPath, jsLookup, hab]

/-- C9 witness: the concrete inner key resolves at the root. -/
theorem c9_witness :
    getNestedValue (parsePhpArray (phpFile (nestB (("greet").toList) (("title").toList)
      (("Hi").toList)))) (("title").toList) = some (("Hi").toList) :=
  c9_inner_pair_leaks_to_top (("greet").toList) (("title").toList) (("Hi").toList)
    (by decide) (by decide) (by decide) (by decide)

/-- C5: the parser is total in the embedding and always returns a mapping
(no exception escapes); on a failed parse, such as a file whose body matches
no pair, the result is the empty mapping, against which every key path
resolves to none. -/
theorem c5_parser_never_raises :
    (∀ content : Str, ∃ es, parsePhpArray content = PT.map es) ∧
    parsePhpArray (("<?php return 2 + 3;").toList) = PT.map [] ∧
    (∀ kp : Str, getNestedValue (PT.map []) kp = none) := by
  refine ⟨?_, ?_, ?_⟩
  · intro content
    show ∃ es, parsePhpArrayF (content.length + 1) content = PT.map es
    rw [parsePhpArrayF_succ]
    exact ⟨_, rfl⟩
  · rfl
  · intro kp
    unfold getNestedValue
    cases splitOnDot kp with
    | nil => rfl
    | cons k ks => simp [walkPath, jsLookup]

/-! ## Resolver core lemmas -/

lemma resolveCore_missing (fs : FS) (cache : Cache) (ck fp kp : Str)
    (hr : fsReadFile fs fp = none) :
    resolveCore fs cache ck fp kp = ⟨none, cache, 0⟩ := by
  simp [resolveCore, hr]

/-- Repeating a resolution yields the same result and the same cache, and
the second pass performs at most the one location read. -/
lemma resolveCore_second (fs : FS) (cache : Cache) (ck fp kp : Str) :
    (resolveCore fs (resolveCore fs cache ck fp kp).cache ck fp kp).res =
      (resolveCore fs cache ck fp kp).res ∧
    (resolveCore fs (resolveCore fs cache ck fp kp).cache ck fp kp).cache =
      (resolveCore fs cache ck fp kp).cache ∧
    (resolveCore fs (resolveCore fs cache ck fp kp).cache ck fp kp).reads ≤ 1 := by
  cases hr : fsReadFile fs fp with
  | none => simp [resolveCore, hr]
  | some content =>
    cases hc : cacheGet cache ck with
    | some t =>
      have e1 : resolveCore fs cache ck fp kp =
          (match getNestedValue t kp with
            | none => ⟨none, cache, 0⟩
            | some v =>
              if v = [] then ⟨none, cache, 0⟩
              else
                ⟨some ⟨v, fp, (((findTranslationInContent content kp).map Prod.fst).getD 0),
                  (((findTranslationInContent content kp).map Prod.snd).getD 0)⟩, cache, 1⟩) := by
        simp [resolveCore, hr, hc, computedT]
      cases hg : getNestedValue t kp with
      | none =>
        rw [e1, hg]
        simp [resolveCore, hr, hc, computedT, hg]
      | some v =>
        by_cases hv : v = []
        · rw [e1, hg]
          simp [resolveCore, hr, hc, computedT, hg, hv]
        · rw [e1, hg]
          simp [resolveCore, hr, hc, computedT, hg, hv]
    | none =>
      have hc2 : cacheGet (cacheSet cache ck (parsePhpArray content)) ck =
          some (parsePhpArray content) := by
        simp [cacheGet, cacheSet]
      have e1 : resolveCore fs cache ck fp kp =
          (match getNestedValue (parsePhpArray content) kp with
            | none => ⟨none, cacheSet cache ck (parsePhpArray content), 1⟩
            | some v =>
              if v = [] then ⟨none, cacheSet cache ck (parsePhpArray content), 1⟩
              else
                ⟨some ⟨v, fp, (((findTranslationInContent content kp).map Prod.fst).getD 0),
                  (((findTranslationInContent content kp).map Prod.snd).getD 0)⟩,
                  cacheSet cache ck (parsePhpArray content), 2⟩) := by
        simp [resolveCore, hr, hc, computedT]
      cases hg : getNestedValue (parsePhpArray content) kp with
      | none =>
        rw [e1, hg]
        simp [resolveCore, hr, hc2, computedT, hg]
      | some v =>
        by_cases hv : v = []
        · rw [e1, hg]
          simp [resolveCore, hr, hc2, computedT, hg, hv]
        · rw [e1, hg]
          simp [resolveCore, hr, hc2, computedT, hg, hv]

/-- A resolved empty-string value is rejected by the falsy check. -/
lemma resolveCore_empty (fs : FS) (cache : Cache) (ck fp kp content : Str)
    (hr : fsReadFile fs fp = some content)
    (hg : getNestedValue (computedT cache ck content) kp = some []) :
    (resolveCore fs cache ck fp kp).res = none := by
  cases hc : cacheGet cache ck with
  | some t =>
    have ht : computedT cache ck content = t := by simp [computedT, hc]
    rw [ht] at hg
    simp [resolveCore, hr, hc, computedT, hg]
  | none =>
    have ht : computedT cache ck content = parsePhpArray content := by simp [computedT, hc]
    rw [ht] at hg
    simp [resolveCore, hr, hc, computedT, hg]

/-- The cache after one resolution is the old cache or the old cache with
one new entry under the cache key of the call. -/
lemma resolveCore_cache_shape (fs : FS) (cache : Cache) (ck fp kp : Str) :
    (resolveCore fs cache ck fp kp).cache = cache ∨
    ∃ t, (resolveCore fs cache ck fp kp).cache = (ck, t) :: cache := by
  cases hr : fsReadFile fs fp with
  | none => left; simp [resolveCore, hr]
  | some content =>
    cases hc : cacheGet cache ck with
    | some t =>
      left
      cases hg : getNestedValue (computedT cache ck content) kp with
      | none => simp [resolveCore, hr, hc, hg]
      | some v =>
        by_cases hv : v = [] <;> simp [resolveCore, hr, hc, hg, hv]
    | none =>
      right
      refine ⟨parsePhpArray content, ?_⟩
      cases hg : getNestedValue (parsePhpArray content) kp with
      | none => simp [resolveCore, hr, hc, computedT, hg, cacheSet]
      | some v =>
        by_cases hv : v = [] <;> simp [resolveCore, hr, hc, computedT, hg, hv, cacheSet]

/-- A successful resolution describes its position by the location scan of
the file content, with the default position when the scan finds nothing. -/
lemma resolveCore_success_loc (fs : FS) (cache : Cache) (ck fp kp : Str)
    (r : TranslationResult) (h : (resolveCore fs cache ck fp kp).res = some r) :
    ∃ content, fsReadFile fs fp = some content ∧ r.filePath = fp ∧
      (r.line, r.column) = (match findTranslationInContent content kp with
        | some lc => lc
        | none => (0, 0)) ∧
      ∃ v, getNestedValue (computedT cache ck content) kp = some v ∧ v ≠ [] ∧
        r.value = v := by
  cases hr : fsReadFile fs fp with
  | none => rw [resolveCore_missing fs cache ck fp kp hr] at h; exact Option.noConfusion h
  | some content =>
    refine ⟨content, rfl, ?_⟩
    cases hg : getNestedValue (computedT cache ck content) kp with
    | none =>
      exfalso
      cases hc : cacheGet cache ck with
      | some t =>
        rw [show computedT cache ck content = t from by simp [computedT, hc]] at hg
        simp [resolveCore, hr, hc, computedT, hg] at h
      | none =>
        rw [show computedT cache ck content = parsePhpArray content from
          by simp [computedT, hc]] at hg
        simp [resolveCore, hr, hc, computedT, hg] at h
    | some v =>
      by_cases hv : v = []
      · exfalso
        subst hv
        cases hc : cacheGet cache ck with
        | some t =>
          rw [show computedT cache ck content = t from by simp [computedT, hc]] at hg
          simp [resolveCore, hr, hc, computedT, hg] at h
        | none =>
          rw [show computedT cache ck content = parsePhpArray content from
            by simp [computedT, hc]] at hg
          simp [resolveCore, hr, hc, computedT, hg] at h
      · have hres : (resolveCore fs cache ck fp kp).res =
            some ⟨v, fp, (((findTranslationInContent content kp).map Prod.fst).getD 0),
              (((findTranslationInContent content kp).map Prod.snd).getD 0)⟩ := by
          cases hc : cacheGet cache ck with
          | some t =>
            rw [show computedT cache ck content = t from by simp [computedT, hc]] at hg
            simp [resolveCore, hr, hc, computedT, hg, hv]
          | none =>
            rw [show computedT cache ck content = parsePhpArray content from
              by simp [computedT, hc]] at hg
            simp [resolveCore, hr, hc, computedT, hg, hv]
        rw [hres] at h
        cases h
        refine ⟨rfl, ?_, ?_⟩
        · cases hloc : findTranslationInContent content kp with
          | none => simp [hloc]
          | some lc => simp [hloc]
        · exact ⟨v, rfl, hv, rfl⟩

/-! ## Locale gathering lemmas -/

lemma gather_subset (fs : FS) (tk : Str) : ∀ (locs : List Str) (cache : Cache) (l : Str),
    l ∈ (gatherLocales fs tk locs cache).1.map Prod.fst → l ∈ locs := by
  intro locs
  induction locs with
  | nil => intro cache l h; simp [gatherLocales] at h
  | cons l0 rest ih =>
    intro cache l h
    simp only [gatherLocales] at h
    cases ho : (resolveTranslationForLocale fs cache tk l0).res with
    | some tr =>
      rw [ho] at h
      have h2 : l ∈ ((l0, tr.value) ::
          (gatherLocales fs tk rest (resolveTranslationForLocale fs cache tk l0).cache).1).map
            Prod.fst := h
      simp only [List.map_cons, List.mem_cons] at h2
      rcases h2 with h2 | h2
      · rw [h2]; exact List.mem_cons_self _ _
      · exact List.mem_cons_of_mem _ (ih _ _ h2)
    | none =>
      rw [ho] at h
      have h2 : l ∈
          (gatherLocales fs tk rest (resolveTranslationForLocale fs cache tk l0).cache).1.map
            Prod.fst := h
      exact List.mem_cons_of_mem _ (ih _ _ h2)

lemma gather_missing (fs : FS) (tk l : Str)
    (hr : fsReadFile fs (localeFilePath fs tk l) = none) :
    ∀ (locs : List Str) (cache : Cache),
      l ∉ (gatherLocales fs tk locs cache).1.map Prod.fst := by
  intro locs
  induction locs with
  | nil => intro cache h; simp [gatherLocales] at h
  | cons l0 rest ih =>
    intro cache h
    simp only [gatherLocales] at h
    cases ho : (resolveTranslationForLocale fs cache tk l0).res with
    | some tr =>
      rw [ho] at h
      have h2 : l ∈ ((l0, tr.value) ::
          (gatherLocales fs tk rest (resolveTranslationForLocale fs cache tk l0).cache).1).map
            Prod.fst := h
      simp only [List.map_cons, List.mem_cons] at h2
      rcases h2 with h2 | h2
      · rw [h2] at hr
        have hnone : (resolveTranslationForLocale fs cache tk l0).res = none := by
          simp only [resolveTranslationForLocale]
          rw [resolveCore_missing _ _ _ _ _ hr]
        rw [hnone] at ho
        exact Option.noConfusion ho
      · exact ih _ h2
    | none =>
      rw [ho] at h
      have h2 : l ∈
          (gatherLocales fs tk rest (resolveTranslationForLocale fs cache tk l0).cache).1.map
            Prod.fst := h
      exact ih _ h2

/-! ## Location scan characterization -/

lemma findHit_some_spec (fk : Str) : ∀ (lines : List Str) (i0 : Nat) (pr : Nat × Nat),
    findHit fk i0 lines = some pr →
    ∃ j, pr.1 = i0 + j ∧ j < lines.length ∧ lineHit fk (lines.getD j []) = some pr.2 ∧
      ∀ m, m < j → lineHit fk (lines.getD m []) = none := by
  intro lines
  induction lines with
  | nil => intro i0 pr h; exact absurd h (by simp [findHit])
  | cons ln rest ih =>
    intro i0 pr h
    simp only [findHit] at h
    cases hl : lineHit fk ln with
    | some col =>
      rw [hl] at h
      have h2 : (some (i0, col) : Option (Nat × Nat)) = some pr := h
      cases h2
      exact ⟨0, by simp, by simp, by simpa using hl, fun m hm => absurd hm (by omega)⟩
    | none =>
      rw [hl] at h
      have h2 : findHit fk (i0 + 1) rest = some pr := h
      obtain ⟨j, e1, e2, e3, e4⟩ := ih (i0 + 1) pr h2
      refine ⟨j + 1, by omega, by simpa using (by omega : j + 1 < rest.length + 1),
        by simpa using e3, ?_⟩
      intro m hm
      cases m with
      | zero => simpa using hl
      | succ m2 =>
        have h3 := e4 m2 (by omega)
        simpa using h3

lemma findHit_none_spec (fk : Str) : ∀ (lines : List Str) (i0 : Nat),
    findHit fk i0 lines = none →
    ∀ j, j < lines.length → lineHit fk (lines.getD j []) = none := by
  intro lines
  induction lines with
  | nil => intro i0 h j hj; simp at hj
  | cons ln rest ih =>
    intro i0 h j hj
    simp only [findHit] at h
    cases hl : lineHit fk ln with
    | some col => rw [hl] at h; exact Option.noConfusion h
    | none =>
      rw [hl] at h
      have h2 : findHit fk (i0 + 1) rest = none := h
      cases j with
      | zero => simpa using hl
      | succ j2 =>
        have h3 := ih (i0 + 1) h2 j2 (by simpa using hj)
        simpa using h3

/-! ## Claims C4, C10, C6, C8, C7 -/

/-- C4 counterexample: in the fixture workspace, the second resolution of
the same key (with the cache produced by the first call) still performs a
disk read (the re-read for the location scan), refuting the claim that the
second resolution does not re-read the file from disk. -/
theorem c4_second_resolution_rereads :
    (resolveTranslation fsA (resolveTranslation fsA [] keyA).cache keyA).reads ≠ 0 := by
  decide

/-- C4 (amended): resolving the same key twice without an intervening
invalidation yields identical results and leaves the cache unchanged; the
second resolution serves the parsed mapping from the cache and reads the
file at most once (only the location re-read, never the parse read). -/
theorem c4_idempotent_resolution :
    (∀ (fs : FS) (cache : Cache) (tk : Str),
      (resolveTranslation fs (resolveTranslation fs cache tk).cache tk).res =
        (resolveTranslation fs cache tk).res ∧
      (resolveTranslation fs (resolveTranslation fs cache tk).cache tk).cache =
        (resolveTranslation fs cache tk).cache ∧
      (resolveTranslation fs (resolveTranslation fs cache tk).cache tk).reads ≤ 1) ∧
    (∀ (fs : FS) (cache : Cache) (tk locale : Str),
      (resolveTranslationForLocale fs (resolveTranslationForLocale fs cache tk locale).cache
        tk locale).res = (resolveTranslationForLocale fs cache tk locale).res ∧
      (resolveTranslationForLocale fs (resolveTranslationForLocale fs cache tk locale).cache
        tk locale).cache = (resolveTranslationForLocale fs cache tk locale).cache ∧
      (resolveTranslationForLocale fs (resolveTranslationForLocale fs cache tk locale).cache
        tk locale).reads ≤ 1) := by
  constructor
  · intro fs cache tk
    simp only [resolveTranslation]
    exact resolveCore_second fs cache _ _ _
  · intro fs cache tk locale
    simp only [resolveTranslationForLocale]
    exact resolveCore_second fs cache _ _ _

/-- C10: a key whose parsed leaf value is the empty string resolves to
none through both resolution functions, because the falsy check rejects the
empty string; an empty translation is indistinguishable from a missing
key. -/
theorem c10_empty_string_rejected :
    (∀ (fs : FS) (cache : Cache) (tk content : Str),
      fsReadFile fs (localeFilePath fs tk (("en").toList)) = some content →
      getNestedValue (computedT cache (localeFilePath fs tk (("en").toList)) content)
        (splitKey tk).2 = some [] →
      (resolveTranslation fs cache tk).res = none) ∧
    (∀ (fs : FS) (cache : Cache) (tk locale content : Str),
      fsReadFile fs (localeFilePath fs tk locale) = some content →
      getNestedValue (computedT cache
        (localeCacheKey locale (localeFilePath fs tk locale)) content)
        (splitKey tk).2 = some [] →
      (resolveTranslationForLocale fs cache tk locale).res = none) := by
  constructor
  · intro fs cache tk content hr hg
    simp only [resolveTranslation]
    exact resolveCore_empty fs cache _ _ _ content hr hg
  · intro fs cache tk locale content hr hg
    simp only [resolveTranslationForLocale]
    exact resolveCore_empty fs cache _ _ _ content hr hg

/-- C10 witness: the fixture file defining an empty-string value resolves
to none. -/
theorem c10_witness : (resolveTranslation fsE [] (("auth.k").toList)).res = none :=
  c10_empty_string_rejected.1 fsE [] (("auth.k").toList)
    (phpFile (pairB (("k").toList) [])) (by decide) (by decide)

/-- C6: in the fixture workspace with locales en, es and fr where only en
and es hold the queried file, the multi-locale resolution returns exactly
the en and es entries; in general every returned locale is a discovered
locale, and a locale whose file is absent is omitted without aborting the
others. -/
theorem c6_all_locales :
    (getAllTranslations fs6 [] (("welcome.title").toList)).1 =
      [((("en").toList : Str), (("Welcome").toList : Str)),
       ((("es").toList : Str), (("Bienvenido").toList : Str))] ∧
    (∀ (fs : FS) (cache : Cache) (tk l : Str),
      l ∈ (getAllTranslations fs cache tk).1.map Prod.fst → l ∈ getAvailableLocales fs) ∧
    (∀ (fs : FS) (cache : Cache) (tk l : Str),
      fsReadFile fs (localeFilePath fs tk l) = none →
      l ∉ (getAllTranslations fs cache tk).1.map Prod.fst) := by
  refine ⟨by decide, ?_, ?_⟩
  · intro fs cache tk l h
    exact gather_subset fs tk _ cache l h
  · intro fs cache tk l hr
    exact gather_missing fs tk l hr _ cache

/-- C6 witness: the locale lacking the file is omitted from the fixture
result. -/
theorem c6_witness :
    (("fr").toList : Str) ∉ (getAllTranslations fs6 [] (("welcome.title").toList)).1.map
      Prod.fst :=
  c6_all_locales.2.2 fs6 [] (("welcome.title").toList) (("fr").toList) (by decide)

/-- C8 counterexample: the cache entry created by resolveTranslation is
keyed by the bare file path, not by a pair of locale and path: the written
key differs from the locale-tagged key used by resolveTranslationForLocale,
and a following locale-specific resolution of the same file misses the
cache and parses again (two reads instead of one). -/
theorem c8_bare_path_cache_key :
    (resolveTranslation fsA [] keyA).cache.map Prod.fst =
      [localeFilePath fsA keyA (("en").toList)] ∧
    localeFilePath fsA keyA (("en").toList) ≠
      localeCacheKey (("en").toList) (localeFilePath fsA keyA (("en").toList)) ∧
    (resolveTranslationForLocale fsA (resolveTranslation fsA [] keyA).cache keyA
      (("en").toList)).reads = 2 := by
  refine ⟨by decide, by decide, by decide⟩

/-- C8 (amended): entries written by resolveTranslationForLocale are keyed
by the locale joined with the absolute file path, and for colon-free locale
names that key determines both components, so entries for the same file
under different locales never collide; entries written by resolveTranslation
are keyed by the bare absolute path of the default-locale file. -/
theorem c8_cache_key_shapes :
    (∀ l1 p1 l2 p2 : Str, ':' ∉ l1 → ':' ∉ l2 →
      localeCacheKey l1 p1 = localeCacheKey l2 p2 → l1 = l2 ∧ p1 = p2) ∧
    (∀ (fs : FS) (cache : Cache) (tk locale : Str),
      (resolveTranslationForLocale fs cache tk locale).cache = cache ∨
      ∃ t, (resolveTranslationForLocale fs cache tk locale).cache =
        (localeCacheKey locale (localeFilePath fs tk locale), t) :: cache) ∧
    (∀ (fs : FS) (cache : Cache) (tk : Str),
      (resolveTranslation fs cache tk).cache = cache ∨
      ∃ t, (resolveTranslation fs cache tk).cache =
        (localeFilePath fs tk (("en").toList), t) :: cache) := by
  refine ⟨?_, ?_, ?_⟩
  · intro l1
    induction l1 with
    | nil =>
      intro p1 l2 p2 h1 h2 he
      cases l2 with
      | nil =>
        refine ⟨rfl, ?_⟩
        have he2 : (':' :: p1 : Str) = ':' :: p2 := he
        injection he2
      | cons c l2 =>
        exfalso
        have he2 : (':' :: p1 : Str) = c :: (l2 ++ ':' :: p2) := he
        have hc : ':' = c := by injection he2
        exact h2 (by rw [← hc]; exact List.mem_cons_self _ _)
    | cons c1 l1 ih =>
      intro p1 l2 p2 h1 h2 he
      cases l2 with
      | nil =>
        exfalso
        have he2 : (c1 :: (l1 ++ ':' :: p1) : Str) = ':' :: p2 := he
        have hc : c1 = ':' := by injection he2
        exact h1 (by rw [← hc]; exact List.mem_cons_self _ _)
      | cons c2 l2 =>
        have he2 : (c1 :: (l1 ++ ':' :: p1) : Str) = c2 :: (l2 ++ ':' :: p2) := he
        have hc : c1 = c2 := by injection he2
        have ht : (l1 ++ ':' :: p1 : Str) = l2 ++ ':' :: p2 := by injection he2
        obtain ⟨e1, e2⟩ := ih p1 l2 p2
          (fun hm => h1 (List.mem_cons_of_mem c1 hm))
          (fun hm => h2 (List.mem_cons_of_mem c2 hm)) ht
        exact ⟨by rw [hc, e1], e2⟩
  · intro fs cache tk locale
    simp only [resolveTranslationForLocale]
    exact resolveCore_cache_shape fs cache _ _ _
  · intro fs cache tk
    simp only [resolveTranslation]
    exact resolveCore_cache_shape fs cache _ _ _

/-- C8 witness: the locale-tagged key decomposition applies at a concrete
locale and path. -/
theorem c8_witness :
    ((("en").toList : Str) = (("en").toList : Str)) ∧
      ((("/ws/lang/en/auth.php").toList : Str) = (("/ws/lang/en/auth.php").toList : Str)) :=
  c8_cache_key_shapes.1 (("en").toList) (("/ws/lang/en/auth.php").toList)
    (("en").toList) (("/ws/lang/en/auth.php").toList) (by decide) (by decide) rfl

/-- C7: the location of a successful resolution depends only on the last
segment of the dotted path; the scan returns the zero-based index of the
first line holding the quoted key with the character offset of that quoted
match; when no line matches, the resolution still succeeds and the position
defaults to the origin. -/
theorem c7_location_finder :
    (∀ content p q : Str, lastSeg p = lastSeg q →
      findTranslationInContent content p = findTranslationInContent content q) ∧
    (∀ (content kp : Str) (pr : Nat × Nat), findTranslationInContent content kp = some pr →
      pr.1 < (splitOnNL content).length ∧
      lineHit (lastSeg kp) ((splitOnNL content).getD pr.1 []) = some pr.2 ∧
      ∀ m, m < pr.1 → lineHit (lastSeg kp) ((splitOnNL content).getD m []) = none) ∧
    (∀ (content kp : Str), findTranslationInContent content kp = none →
      ∀ j, j < (splitOnNL content).length →
        lineHit (lastSeg kp) ((splitOnNL content).getD j []) = none) ∧
    (∀ (fs : FS) (cache : Cache) (tk : Str) (r : TranslationResult),
      (resolveTranslation fs cache tk).res = some r →
      ∃ content, fsReadFile fs (localeFilePath fs tk (("en").toList)) = some content ∧
        (r.line, r.column) = (match findTranslationInContent content (splitKey tk).2 with
          | some lc => lc
          | none => (0, 0))) := by
  refine ⟨?_, ?_, ?_, ?_⟩
  · intro content p q h
    unfold findTranslationInContent
    rw [h]
  · intro content kp pr h
    obtain ⟨j, e1, e2, e3, e4⟩ := findHit_some_spec (lastSeg kp) (splitOnNL content) 0 pr h
    have ej : pr.1 = j := by omega
    subst ej
    exact ⟨e2, e3, e4⟩
  · intro content kp h
    exact findHit_none_spec (lastSeg kp) (splitOnNL content) 0 h
  · intro fs cache tk r h
    have h2 : (resolveCore fs cache (localeFilePath fs tk (("en").toList))
        (localeFilePath fs tk (("en").toList)) (splitKey tk).2).res = some r := h
    obtain ⟨content, hr, _, hpos, _⟩ := resolveCore_success_loc _ _ _ _ _ r h2
    exact ⟨content, hr, hpos⟩

/-- C7 witness: the fixture resolution carries the position of the quoted
key on the first line. -/
theorem c7_witness :
    ∃ content, fsReadFile fsA (localeFilePath fsA keyA (("en").toList)) = some content ∧
      (((⟨(("Invalid credentials.").toList : Str),
          localeFilePath fsA keyA (("en").toList), 0, 14⟩ : TranslationResult)).line,
        ((⟨(("Invalid credentials.").toList : Str),
          localeFilePath fsA keyA (("en").toList), 0, 14⟩ : TranslationResult)).column) =
        (match findTranslationInContent content (splitKey keyA).2 with
          | some lc => lc
          | none => (0, 0)) :=
  c7_location_finder.2.2.2 fsA [] keyA
    ⟨(("Invalid credentials.").toList), localeFilePath fsA keyA (("en").toList), 0, 14⟩
    (by decide)

end LaravelTranslate
